import Mathlib

/-!
Verification of the audio narration synthesis and timing-alignment engine of
the story-generation pipeline (source: `src/agent/AgentAudioMaker.py`).

Strings are modelled as `List Char`.  Python byte lengths of UTF-8 encoded
strings are modelled with `Char.utf8Size`, which agrees with CPython's
`str.encode("utf-8")` length per character.  Character classes (`\d`, `\s`,
`str.isalnum`) are embedded at their ASCII core, which is what the code under
verification ever produces and consumes.
-/

set_option autoImplicit false

namespace AudioMaker

/-- Apostrophe character (code point 39). -/
def apos : Char := Char.ofNat 39

/-- Double quote character (code point 34). -/
def quot : Char := Char.ofNat 34

/-- Whitespace, as used by Python `str.split()` / `str.strip()` / regex `\s`
(ASCII part: space, tab, newline, carriage return, vertical tab, form feed). -/
def isSpaceChar (c : Char) : Bool :=
  c == ' ' || c == '\t' || c == '\n' || c == '\r' || c == '\x0b' || c == '\x0c'

/-- Python `str.isalnum` membership test for a single character (ASCII core). -/
def isAlnumChar (c : Char) : Bool := c.isAlphanum

/-- Regex `\d` character class (ASCII digits). -/
def digitChar (c : Char) : Bool :=
  c == '0' || c == '1' || c == '2' || c == '3' || c == '4' ||
  c == '5' || c == '6' || c == '7' || c == '8' || c == '9'

/-- Characters matched by the regex class `[^<\s]`: anything but `<` and whitespace. -/
def tokChar (c : Char) : Bool := !(c == '<') && !(isSpaceChar c)

/-- The decimal digit character for a value below ten (as produced by Python `str(i)`). -/
def digitCharOf (d : Nat) : Char :=
  if d = 0 then '0' else if d = 1 then '1' else if d = 2 then '2'
  else if d = 3 then '3' else if d = 4 then '4' else if d = 5 then '5'
  else if d = 6 then '6' else if d = 7 then '7' else if d = 8 then '8' else '9'

/-- Numeric value of a decimal digit character. -/
def digitVal (c : Char) : Nat := c.toNat - 48

/-- Python `int(s)` on a string of decimal digits. -/
def digitsToNat (s : List Char) : Nat := s.foldl (fun a c => 10 * a + digitVal c) 0

/-- Decimal digits of `n`, most significant first, with explicit fuel
(`fuel > n` always suffices); models Python `str(n)` for natural `n`. -/
def natDigitsAux : Nat → Nat → List Char
  | 0, _ => []
  | fuel + 1, n =>
    if n < 10 then [digitCharOf n] else natDigitsAux fuel (n / 10) ++ [digitCharOf (n % 10)]

/-- Decimal representation of `n`, models Python `str(n)`. -/
def natDigits (n : Nat) : List Char := natDigitsAux (n + 1) n

/-- Boolean test that `p` is a prefix of `s`, models Python `str.startswith`. -/
def startsWith : List Char → List Char → Bool
  | [], _ => true
  | _ :: _, [] => false
  | p :: ps, c :: cs => (p == c) && startsWith ps cs

/-- Number of (possibly overlapping) occurrences of the nonempty pattern `pat`
in `s`, counted at every starting position. -/
def countOcc (pat : List Char) : List Char → Nat
  | [] => 0
  | c :: rest => (if startsWith pat (c :: rest) then 1 else 0) + countOcc pat rest

/-- UTF-8 byte length of a string, models Python `len(s.encode("utf-8"))`. -/
def utf8Len (s : List Char) : Nat := (s.map Char.utf8Size).sum

/-- Python `" ".join(xs)`. -/
def joinWithSpaces : List (List Char) → List Char
  | [] => []
  | [l] => l
  | l :: ls => l ++ ' ' :: joinWithSpaces ls

/-- Python `str.strip()`: drop leading and trailing whitespace. -/
def pyStrip (s : List Char) : List Char :=
  ((s.dropWhile isSpaceChar).reverse.dropWhile isSpaceChar).reverse

/-- Helper for `pySplit`: `acc` is the word collected so far. -/
def pySplitAux : List Char → List Char → List (List Char)
  | [], acc => if acc.isEmpty then [] else [acc]
  | c :: rest, acc =>
    if isSpaceChar c then
      if acc.isEmpty then pySplitAux rest [] else acc :: pySplitAux rest []
    else pySplitAux rest (acc ++ [c])

/-- Python `str.split()` with no argument: split on whitespace runs, no empty tokens. -/
def pySplit (s : List Char) : List (List Char) := pySplitAux s []

/-- Per-character expansion of Python `html.escape(s, quote=True)`. -/
def escapeChar (c : Char) : List Char :=
  if c == '&' then ['&', 'a', 'm', 'p', ';']
  else if c == '<' then ['&', 'l', 't', ';']
  else if c == '>' then ['&', 'g', 't', ';']
  else if c == quot then ['&', 'q', 'u', 'o', 't', ';']
  else if c == apos then ['&', '#', 'x', '2', '7', ';']
  else [c]

/-- Python `html.escape(s, quote=True)`. -/
def htmlEscape (s : List Char) : List Char := (s.map escapeChar).flatten

/-- The literal `<speak>` wrapper opening tag. -/
def openTag : List Char := ['<', 's', 'p', 'e', 'a', 'k', '>']

/-- The literal `</speak>` wrapper closing tag. -/
def closeTag : List Char := ['<', '/', 's', 'p', 'e', 'a', 'k', '>']

/-- The literal prefix of a mark tag up to the numeric id: `<mark name='w`. -/
def markPre : List Char :=
  ['<', 'm', 'a', 'r', 'k', ' ', 'n', 'a', 'm', 'e', '=', apos, 'w']

/-- The literal tail of a mark tag after the numeric id: `'/>`. -/
def markSuf : List Char := [apos, '/', '>']

/-- The literal `[IMAGE:` image-reference line marker. -/
def imageMark : List Char := ['[', 'I', 'M', 'A', 'G', 'E', ':']

/-- A full mark tag `<mark name='wI'/>` for index `i`
(the f-string `<mark name='w{i}'/>` of `_create_ssml_with_timing`). -/
def markTag (i : Nat) : List Char := markPre ++ natDigits i ++ markSuf

/-! ### Text Normalizer: `_read_and_prepare_story` (lines 121-156) -/

/-- The line-filtering loop of `_read_and_prepare_story`: strip each line, skip
blank lines (leaving the skip flag untouched), skip `[IMAGE:` lines while
arming the skip flag for the following description line. -/
def filterLines : Bool → List (List Char) → List (List Char)
  | _, [] => []
  | skipNext, line :: rest =>
    if (pyStrip line).isEmpty then filterLines skipNext rest
    else if startsWith imageMark (pyStrip line) then filterLines true rest
    else if skipNext then filterLines false rest
    else pyStrip line :: filterLines false rest

/-- `_read_and_prepare_story`, taking the file's lines (the `readlines()`
result) as input: filter image/caption lines, join with spaces, then
whitespace-normalize by splitting and re-joining. -/
def read_and_prepare_story (lines : List (List Char)) : List Char :=
  joinWithSpaces (pySplit (joinWithSpaces (filterLines false lines)))

/-! ### Markup Builder: `_create_ssml_with_timing` (lines 158-172) -/

/-- The body accumulated by the loop of `_create_ssml_with_timing`, starting at
word index `i`: each whitespace token is stripped, escaped and emitted followed
by a space, preceded by a `<mark name='wI'/>` tag when it has an alphanumeric
character; `i` counts all tokens (Python `enumerate`). -/
def ssmlBody : Nat → List (List Char) → List Char
  | _, [] => []
  | i, w :: rest =>
    (if (pyStrip w).any isAlnumChar then markTag i ++ htmlEscape (pyStrip w) ++ [' ']
     else htmlEscape (pyStrip w) ++ [' ']) ++ ssmlBody (i + 1) rest

/-- `_create_ssml_with_timing`: split on whitespace and wrap the marked body in
a single `<speak>`/`</speak>` pair. -/
def create_ssml_with_timing (storyText : List Char) : List Char :=
  openTag ++ ssmlBody 0 (pySplit storyText) ++ closeTag

/-- The piece (marked word or bare token) the builder emits for token `w` at
index `i`, without the trailing space separator. -/
def piecesOf : Nat → List (List Char) → List (List Char)
  | _, [] => []
  | i, w :: rest =>
    (if (pyStrip w).any isAlnumChar then markTag i ++ htmlEscape (pyStrip w)
     else htmlEscape (pyStrip w)) :: piecesOf (i + 1) rest

/-- The mark indices the builder assigns, in document order: the `enumerate`
index `i` of each token that contains an alphanumeric character. -/
def markIdsAux : Nat → List (List Char) → List Nat
  | _, [] => []
  | i, w :: rest =>
    if (pyStrip w).any isAlnumChar then i :: markIdsAux (i + 1) rest
    else markIdsAux (i + 1) rest

/-! ### Chunk Splitter: `_split_ssml_into_chunks` (lines 174-195) -/

/-- Maximal run of `[^<\s]` characters at the front of `s`, with the rest. -/
def takeTok : List Char → List Char × List Char
  | [] => ([], [])
  | c :: rest =>
    if tokChar c then
      let p := takeTok rest
      (c :: p.1, p.2)
    else ([], c :: rest)

/-- Maximal run of `\d` characters at the front of `s`, with the rest. -/
def takeDigits : List Char → List Char × List Char
  | [] => ([], [])
  | c :: rest =>
    if digitChar c then
      let p := takeDigits rest
      (c :: p.1, p.2)
    else ([], c :: rest)

/-- Attempt to match the first regex alternative `<mark name='w\d+'/>[^<\s]+`
at the head of `s`; on success returns the matched text and the rest.  The
literal, then at least one digit (greedy), then the closing literal, then at
least one `[^<\s]` character (greedy). -/
def tryMark (s : List Char) : Option (List Char × List Char) :=
  if startsWith markPre s then
    if (takeDigits (s.drop markPre.length)).1 = [] then none
    else if startsWith markSuf (takeDigits (s.drop markPre.length)).2 then
      if (takeTok ((takeDigits (s.drop markPre.length)).2.drop markSuf.length)).1 = [] then
        none
      else
        some (markPre ++ (takeDigits (s.drop markPre.length)).1 ++ markSuf ++
            (takeTok ((takeDigits (s.drop markPre.length)).2.drop markSuf.length)).1,
          (takeTok ((takeDigits (s.drop markPre.length)).2.drop markSuf.length)).2)
    else none
  else none

/-- Attempt to match the regex `<mark name='w\d+'/>[^<\s]+|[^<\s]+` at the
head of `s` (first alternative preferred, both greedy). -/
def matchPatternAt (s : List Char) : Option (List Char × List Char) :=
  match tryMark s with
  | some mr => some mr
  | none => if (takeTok s).1 = [] then none else some ((takeTok s).1, (takeTok s).2)

/-- Fueled scanner for Python `re.findall(pattern, s)`: at each position try to
match; on success emit the match and continue after it, otherwise advance one
character.  `fuel ≥ s.length` always suffices (each step consumes a character). -/
def findallFuel : Nat → List Char → List (List Char)
  | 0, _ => []
  | _ + 1, [] => []
  | fuel + 1, c :: rest =>
    (matchPatternAt (c :: rest)).elim (findallFuel fuel rest)
      (fun mr => mr.1 :: findallFuel fuel mr.2)

/-- Python `re.findall(r"<mark name='w\d+'/>[^<\s]+|[^<\s]+", s)`. -/
def findall (s : List Char) : List (List Char) := findallFuel s.length s

/-- Fueled Python `s.replace(pat, "")` for a nonempty `pat`: remove
non-overlapping occurrences left to right.  `fuel ≥ s.length` suffices. -/
def removeOccFuel (pat : List Char) : Nat → List Char → List Char
  | 0, s => s
  | _ + 1, [] => []
  | fuel + 1, c :: rest =>
    if startsWith pat (c :: rest) then removeOccFuel pat fuel ((c :: rest).drop pat.length)
    else c :: removeOccFuel pat fuel rest

/-- Python `s.replace(pat, "")` for a nonempty pattern. -/
def removeOcc (pat s : List Char) : List Char := removeOccFuel pat s.length s

/-- The `parts` list of `_split_ssml_into_chunks`: wrapper tags removed by the
two `replace` calls, then the pieces re-extracted by `re.findall`. -/
def extractParts (ssml : List Char) : List (List Char) :=
  findall (removeOcc closeTag (removeOcc openTag ssml))

/-- The accumulation loop of `_split_ssml_into_chunks`, rendered as a recursion
returning the chunks still to be emitted from state `current`: each piece gets
a trailing space; if closing the would-be chunk overflows `maxBytes`, the
current chunk is closed and emitted and a new one is seeded with the piece;
after the last piece the final chunk is closed and emitted unconditionally. -/
def chunkLoop (maxBytes : Nat) : List (List Char) → List Char → List (List Char)
  | [], current => [current ++ closeTag]
  | part :: rest, current =>
    if utf8Len (current ++ (part ++ [' ']) ++ closeTag) > maxBytes then
      (current ++ closeTag) :: chunkLoop maxBytes rest (openTag ++ (part ++ [' ']))
    else chunkLoop maxBytes rest (current ++ (part ++ [' ']))

/-- `_split_ssml_into_chunks`. -/
def split_ssml_into_chunks (ssml : List Char) (maxBytes : Nat) : List (List Char) :=
  chunkLoop maxBytes (extractParts ssml) openTag

/-- Strip the `<speak>` opening and `</speak>` closing wrapper tags from a
wrapped chunk (7 leading and 8 trailing characters). -/
def stripWrap (s : List Char) : List Char := (s.take (s.length - 8)).drop 7

/-- Concatenation of pieces, each followed by its space separator: the document
body a list of pieces serializes to. -/
def joinSp (parts : List (List Char)) : List Char := (parts.map (fun p => p ++ [' '])).flatten

/-- Chunk count of the splitter loop as a function of the byte length of the
current chunk state only (`b = utf8Len current`); mirrors `chunkLoop`. -/
def countChunks (maxBytes : Nat) : Nat → List (List Char) → Nat
  | _, [] => 1
  | b, p :: rest =>
    if b + utf8Len p + 9 > maxBytes then 1 + countChunks maxBytes (8 + utf8Len p) rest
    else countChunks maxBytes (b + utf8Len p + 1) rest

/-- Every occurrence of `<` in the string is immediately followed by `m` (so in
particular the string does not end in `<`).  This holds of the inner content of
every wrapped chunk — the only tags there are `<mark .../>` tags — and rules
out any occurrence of the wrapper tags inside it. -/
def ltOk : List Char → Bool
  | [] => true
  | [c] => !(c == '<')
  | c1 :: c2 :: rest => (!(c1 == '<') || (c2 == 'm')) && ltOk (c2 :: rest)

/-- A parse of the numeric id of a marked piece, as the splitter's regex and
the merger's `int(tp.mark_name[1:])` see it. -/
def parseMarkId (p : List Char) : Option Nat :=
  if startsWith markPre p then some (digitsToNat ((takeDigits (p.drop markPre.length)).1))
  else none

/-- The marker ids present in a markup document, in document order, read back
from the document's pieces. -/
def extractIds (doc : List Char) : List Nat := (extractParts doc).filterMap parseMarkId

/-! ### Timeline Merger: the timepoint handling of `_generate_voice_audio`
(lines 209-244).  Times are carried through untouched by the code, so they are
modelled generically by a type parameter. -/

/-- A timepoint as reported by the synthesis capability and as stored in the
merged timing list (the `TimingPoint` record / the `all_timepoints` dicts). -/
structure TimingPoint (τ : Type) where
  mark_name : List Char
  time_seconds : τ
deriving DecidableEq

/-- The renumbering applied to one timepoint:
`f"w{mark_index_offset + int(tp.mark_name[1:])}"`, time kept unchanged. -/
def renumberTimepoint {τ : Type} (offset : Nat) (tp : TimingPoint τ) : TimingPoint τ :=
  { mark_name := 'w' :: natDigits (offset + digitsToNat (tp.mark_name.drop 1)),
    time_seconds := tp.time_seconds }

/-- The chunk loop's timepoint accumulation: extend `all_timepoints` with the
renumbered timepoints of each chunk response in order, adding the running
`mark_index_offset` (the count of timepoints from prior chunks). -/
def mergeLoop {τ : Type} (offset : Nat) : List (List (TimingPoint τ)) → List (TimingPoint τ)
  | [] => []
  | tps :: rest => tps.map (renumberTimepoint offset) ++ mergeLoop (offset + tps.length) rest

/-- The merged `all_timepoints` list produced from the per-chunk responses. -/
def mergeTimepoints {τ : Type} (chunkResponses : List (List (TimingPoint τ))) :
    List (TimingPoint τ) :=
  mergeLoop 0 chunkResponses

/-- Chunk-local labelling: the response's timepoints carry the labels
`w0 .. w(n-1)` in order, as assumed by the renumbering rule. -/
def localLabels {τ : Type} (tps : List (TimingPoint τ)) : Prop :=
  tps.map TimingPoint.mark_name = (List.range tps.length).map (fun j => 'w' :: natDigits j)

/-! ### `create_audio` (lines 72-119) and the per-voice driver boundary
(lines 197-288).  External effects (file reads, synthesis calls, ffmpeg, disk
writes) are modelled by oracles returning either a value or a raised
exception; `_generate_voice_audio`'s catch-all `except` turns any exception
into `None`, and `create_audio`'s catch-all turns one into a failure record. -/

/-- Outcome of a Python call: a value, or a raised exception (its message). -/
inductive PyResult (α : Type) where
  | ok : α → PyResult α
  | exn : List Char → PyResult α
deriving DecidableEq

/-- Whether a call outcome is a raised exception. -/
def isExn {α : Type} : PyResult α → Bool
  | .ok _ => false
  | .exn _ => true

/-- The record built per successful voice configuration. -/
structure VoiceAudioResult where
  language_code : List Char
  gender : List Char
  voice_name : List Char
  audio_file_path : List Char
  timing_file_path : List Char
  file_size_mb : Nat
deriving DecidableEq

/-- The aggregate record `create_audio` returns for one story. -/
structure AudioGenerationResult where
  success : Bool
  story_id : List Char
  voice_results : List VoiceAudioResult
  error_message : Option (List Char)
deriving DecidableEq

/-- The literal `es-ES`. -/
def esES : List Char := ['e', 's', '-', 'E', 'S']

/-- The literal `es-US`. -/
def esUS : List Char := ['e', 's', '-', 'U', 'S']

/-- The literal `male`. -/
def maleLbl : List Char := ['m', 'a', 'l', 'e']

/-- The literal `female`. -/
def femaleLbl : List Char := ['f', 'e', 'm', 'a', 'l', 'e']

/-- The four (language, gender) configurations of `self.voice_configs`, in the
dict's (insertion) iteration order. -/
def voiceConfigList : List (List Char × List Char) :=
  [(esES, maleLbl), (esES, femaleLbl), (esUS, maleLbl), (esUS, femaleLbl)]

/-- The provider voice identity of each configuration (`voice_name` fields of
`self.voice_configs`). -/
def voiceNameFor (cfg : List Char × List Char) : List Char :=
  if cfg = (esES, maleLbl) then
    ['e', 's', '-', 'E', 'S', '-', 'N', 'e', 'u', 'r', 'a', 'l', '2', '-', 'G']
  else if cfg = (esES, femaleLbl) then
    ['e', 's', '-', 'E', 'S', '-', 'N', 'e', 'u', 'r', 'a', 'l', '2', '-', 'H']
  else if cfg = (esUS, maleLbl) then
    ['e', 's', '-', 'U', 'S', '-', 'N', 'e', 'u', 'r', 'a', 'l', '2', '-', 'C']
  else ['e', 's', '-', 'U', 'S', '-', 'N', 'e', 'u', 'r', 'a', 'l', '2', '-', 'A']

/-- `_generate_voice_audio` at the claim boundary: its fallible body (chunked
synthesis, audio concatenation, timing/disk writes) is the oracle `body`,
which for a given ssml document and configuration either produces the audio
path, the timing path and the file size, or raises; the catch-all `except` of
lines 286-288 maps a raised exception to `None`, a success to the
`VoiceAudioResult` built with the loop's configuration values. -/
def generate_voice_audio
    (body : List Char → List Char × List Char → PyResult (List Char × List Char × Nat))
    (ssml : List Char) (cfg : List Char × List Char) : Option VoiceAudioResult :=
  match body ssml cfg with
  | .ok v =>
    some { language_code := cfg.1, gender := cfg.2, voice_name := voiceNameFor cfg,
           audio_file_path := v.1, timing_file_path := v.2.1,
           file_size_mb := v.2.2 }
  | .exn _ => none

/-- `create_audio`: prepare the story text (`prepare` is the outcome of reading
and normalizing the story file, which may raise), build the ssml, then collect
the per-configuration results in order, keeping the non-`None` ones; success
is `len(voice_results) > 0`.  A story-level exception yields a failure record
with the message; no exception escapes. -/
def create_audio (prepare : PyResult (List Char))
    (body : List Char → List Char × List Char → PyResult (List Char × List Char × Nat))
    (storyId : List Char) : AudioGenerationResult :=
  match prepare with
  | .exn e => { success := false, story_id := storyId, voice_results := [],
                error_message := some e }
  | .ok storyText =>
    let ssml := create_ssml_with_timing storyText
    let voiceResults := voiceConfigList.filterMap (generate_voice_audio body ssml)
    { success := decide (voiceResults.length > 0), story_id := storyId,
      voice_results := voiceResults, error_message := none }

/-! ### Concrete example inputs used by witnesses and counterexamples -/

/-- The markup document `<speak>a</speak>`: a single one-byte piece. -/
def cexDoc : List Char := openTag ++ ('a' :: closeTag)

/-- The markup document `<speak>hi yo</speak>`: two pieces of two bytes each. -/
def wDoc : List Char := openTag ++ (['h', 'i', ' ', 'y', 'o'] ++ closeTag)

/-- The wrapped chunk `<speak>hi </speak>`. -/
def wChunkHi : List Char := openTag ++ (['h', 'i', ' '] ++ closeTag)

/-- The wrapped chunk `<speak>hi yo </speak>`. -/
def wChunkHiYo : List Char := openTag ++ (['h', 'i', ' ', 'y', 'o', ' '] ++ closeTag)

/-- A first chunk response: labels `w0, w1` with times 1 and 2. -/
def tpsA : List (TimingPoint Nat) :=
  [{ mark_name := ['w', '0'], time_seconds := 1 }, { mark_name := ['w', '1'], time_seconds := 2 }]

/-- A second chunk response: label `w0` with time 3. -/
def tpsB : List (TimingPoint Nat) := [{ mark_name := ['w', '0'], time_seconds := 3 }]

/-- A third chunk response: label `w0` with time 4. -/
def tpsC : List (TimingPoint Nat) := [{ mark_name := ['w', '0'], time_seconds := 4 }]

/-- Story file lines consisting only of an image reference and its caption. -/
def imgOnlyLines : List (List Char) :=
  [['[', 'I', 'M', 'A', 'G', 'E', ':', ' ', 'x', ']'], ['c', 'a', 'p']]

/-- The narration string `a . b`: its middle token has no alphanumeric character. -/
def abText : List Char := ['a', ' ', '.', ' ', 'b']

/-- A per-voice oracle that raises exactly for the `es-US`/`female`
configuration and succeeds for the three others. -/
def bodyOneFail : List Char → List Char × List Char → PyResult (List Char × List Char × Nat) :=
  fun _ cfg =>
    if cfg = (esUS, femaleLbl) then .exn ['b', 'o', 'o', 'm'] else .ok (['p'], ['t'], 1)

/-! ### Lemmas: digits and decimal representations -/

theorem digitChar_digitCharOf (d : Nat) : digitChar (digitCharOf d) = true := by
  unfold digitCharOf
  repeat' split
  all_goals decide

theorem digitVal_digitCharOf (d : Nat) (h : d < 10) : digitVal (digitCharOf d) = d := by
  interval_cases d <;> decide

theorem digitsToNat_append_last (xs : List Char) (c : Char) :
    digitsToNat (xs ++ [c]) = 10 * digitsToNat xs + digitVal c := by
  simp [digitsToNat, List.foldl_append]

theorem mem_natDigitsAux_digit (fuel : Nat) :
    ∀ (n : Nat) (c : Char), c ∈ natDigitsAux fuel n → digitChar c = true := by
  induction fuel with
  | zero => intro n c h; simp [natDigitsAux] at h
  | succ fuel ih =>
    intro n c h
    unfold natDigitsAux at h
    split at h
    · simp at h; subst h; exact digitChar_digitCharOf n
    · rcases List.mem_append.mp h with h1 | h1
      · exact ih _ _ h1
      · simp at h1; subst h1; exact digitChar_digitCharOf (n % 10)

theorem mem_natDigits_digit (n : Nat) (c : Char) (h : c ∈ natDigits n) :
    digitChar c = true :=
  mem_natDigitsAux_digit (n + 1) n c h

theorem natDigits_ne_nil (n : Nat) : natDigits n ≠ [] := by
  unfold natDigits natDigitsAux
  split
  · simp
  · simp

theorem digitsToNat_natDigitsAux (fuel : Nat) :
    ∀ n : Nat, n < fuel → digitsToNat (natDigitsAux fuel n) = n := by
  induction fuel with
  | zero => intro n h; omega
  | succ fuel ih =>
    intro n h
    unfold natDigitsAux
    split
    · next h10 =>
      show digitsToNat [digitCharOf n] = n
      simp [digitsToNat, digitVal_digitCharOf n h10]
    · next h10 =>
      rw [digitsToNat_append_last, ih (n / 10) (by omega),
        digitVal_digitCharOf (n % 10) (by omega)]
      omega

theorem digitsToNat_natDigits (n : Nat) : digitsToNat (natDigits n) = n :=
  digitsToNat_natDigitsAux (n + 1) n (by omega)

theorem digitChar_not_lt {c : Char} (h : digitChar c = true) : (c == '<') = false := by
  unfold digitChar at h
  simp only [Bool.or_eq_true, beq_iff_eq] at h
  rcases h with ((((((((h | h) | h) | h) | h) | h) | h) | h) | h) | h <;> subst h <;> decide

theorem digitChar_tokChar {c : Char} (h : digitChar c = true) : tokChar c = true := by
  unfold digitChar at h
  simp only [Bool.or_eq_true, beq_iff_eq] at h
  rcases h with ((((((((h | h) | h) | h) | h) | h) | h) | h) | h) | h <;> subst h <;> decide

/-! ### Lemmas: `startsWith`, list appends, UTF-8 lengths -/

theorem startsWith_append_self (p t : List Char) : startsWith p (p ++ t) = true := by
  induction p with
  | nil => rfl
  | cons c cs ih => simp [startsWith, ih]

theorem eq_append_of_startsWith {p s : List Char} (h : startsWith p s = true) :
    p ++ s.drop p.length = s := by
  induction p generalizing s with
  | nil => simp
  | cons c cs ih =>
    cases s with
    | nil => simp [startsWith] at h
    | cons d ds =>
      simp only [startsWith, Bool.and_eq_true, beq_iff_eq] at h
      obtain ⟨rfl, h2⟩ := h
      simpa using ih h2

theorem startsWith_cons_false {p c : Char} (ps cs : List Char)
    (h : (p == c) = false) : startsWith (p :: ps) (c :: cs) = false := by
  simp [startsWith, h]

theorem utf8Len_append (a b : List Char) : utf8Len (a ++ b) = utf8Len a + utf8Len b := by
  simp [utf8Len]

theorem utf8Len_openTag : utf8Len openTag = 7 := by decide

theorem utf8Len_closeTag : utf8Len closeTag = 8 := by decide

theorem utf8Len_space : utf8Len [' '] = 1 := by decide

theorem utf8Len_cons (c : Char) (s : List Char) :
    utf8Len (c :: s) = c.utf8Size + utf8Len s := by
  simp [utf8Len]

/-! ### Lemmas: the regex scanner -/

theorem takeTok_eq (s : List Char) : (takeTok s).1 ++ (takeTok s).2 = s := by
  induction s with
  | nil => rfl
  | cons c rest ih =>
    unfold takeTok
    split
    · simpa using ih
    · rfl

theorem takeTok_mem (s : List Char) : ∀ c ∈ (takeTok s).1, tokChar c = true := by
  induction s with
  | nil => intro c h; simp [takeTok] at h
  | cons d rest ih =>
    intro c h
    unfold takeTok at h
    split at h
    · next hd =>
      simp at h
      rcases h with rfl | h
      · exact hd
      · exact ih c h
    · simp at h

theorem takeTok_of_run {t : List Char} (ht : ∀ c ∈ t, tokChar c = true)
    {d : Char} (hd : tokChar d = false) (r : List Char) :
    takeTok (t ++ d :: r) = (t, d :: r) := by
  induction t with
  | nil => simp [takeTok, hd]
  | cons c cs ih =>
    have hc : tokChar c = true := ht c (by simp)
    have ih2 := ih (fun x hx => ht x (by simp [hx]))
    simp [takeTok, hc, ih2]

theorem takeDigits_eq (s : List Char) : (takeDigits s).1 ++ (takeDigits s).2 = s := by
  induction s with
  | nil => rfl
  | cons c rest ih =>
    unfold takeDigits
    split
    · simpa using ih
    · rfl

theorem takeDigits_mem (s : List Char) : ∀ c ∈ (takeDigits s).1, digitChar c = true := by
  induction s with
  | nil => intro c h; simp [takeDigits] at h
  | cons d rest ih =>
    intro c h
    unfold takeDigits at h
    split at h
    · next hd =>
      simp at h
      rcases h with rfl | h
      · exact hd
      · exact ih c h
    · simp at h

theorem takeDigits_of_run {t : List Char} (ht : ∀ c ∈ t, digitChar c = true)
    {d : Char} (hd : digitChar d = false) (r : List Char) :
    takeDigits (t ++ d :: r) = (t, d :: r) := by
  induction t with
  | nil => simp [takeDigits, hd]
  | cons c cs ih =>
    have hc : digitChar c = true := ht c (by simp)
    have ih2 := ih (fun x hx => ht x (by simp [hx]))
    simp [takeDigits, hc, ih2]

theorem tryMark_some {s m r : List Char} (h : tryMark s = some (m, r)) :
    m ++ r = s ∧ m ≠ [] := by
  unfold tryMark at h
  split at h
  · next hsw =>
    split at h
    · exact absurd h (by simp)
    · next hds =>
      split at h
      · next hsw2 =>
        split at h
        · exact absurd h (by simp)
        · next htok =>
          simp only [Option.some.injEq, Prod.mk.injEq] at h
          obtain ⟨rfl, rfl⟩ := h
          have hs := eq_append_of_startsWith hsw
          have hs2 := eq_append_of_startsWith hsw2
          have hdig := takeDigits_eq (s.drop markPre.length)
          have htk := takeTok_eq ((takeDigits (s.drop markPre.length)).2.drop markSuf.length)
          constructor
          · calc (markPre ++ (takeDigits (s.drop markPre.length)).1 ++ markSuf ++
                  (takeTok ((takeDigits (s.drop markPre.length)).2.drop markSuf.length)).1) ++
                  (takeTok ((takeDigits (s.drop markPre.length)).2.drop markSuf.length)).2
                = markPre ++ ((takeDigits (s.drop markPre.length)).1 ++ (markSuf ++
                    ((takeTok ((takeDigits (s.drop markPre.length)).2.drop markSuf.length)).1 ++
                     (takeTok ((takeDigits (s.drop markPre.length)).2.drop markSuf.length)).2))) := by
                  simp [List.append_assoc]
              _ = markPre ++ ((takeDigits (s.drop markPre.length)).1 ++ (markSuf ++
                    (takeDigits (s.drop markPre.length)).2.drop markSuf.length)) := by rw [htk]
              _ = markPre ++ ((takeDigits (s.drop markPre.length)).1 ++
                    (takeDigits (s.drop markPre.length)).2) := by rw [hs2]
              _ = markPre ++ s.drop markPre.length := by rw [hdig]
              _ = s := hs
          · simp [markPre]
      · exact absurd h (by simp)
  · exact absurd h (by simp)

theorem matchPatternAt_some {s m r : List Char} (h : matchPatternAt s = some (m, r)) :
    m ++ r = s ∧ m ≠ [] := by
  unfold matchPatternAt at h
  cases htm : tryMark s with
  | some v =>
    rw [htm] at h
    cases v with
    | mk a b =>
      simp only [Option.some.injEq, Prod.mk.injEq] at h
      obtain ⟨rfl, rfl⟩ := h
      exact tryMark_some htm
  | none =>
    rw [htm] at h
    split at h
    · next mr heq => exact absurd heq (by simp)
    · split at h
      · exact absurd h (by simp)
      · next htok =>
        simp only [Option.some.injEq, Prod.mk.injEq] at h
        obtain ⟨rfl, rfl⟩ := h
        exact ⟨takeTok_eq s, htok⟩

/-! ### Lemmas: fuel adequacy for the scanner and for occurrence removal -/

theorem findallFuel_stable (f1 : Nat) : ∀ (f2 : Nat) (s : List Char),
    s.length ≤ f1 → s.length ≤ f2 → findallFuel f1 s = findallFuel f2 s := by
  induction f1 with
  | zero =>
    intro f2 s h1 _
    have hs : s = [] := List.eq_nil_of_length_eq_zero (by omega)
    subst hs
    cases f2 <;> rfl
  | succ f1 ih =>
    intro f2 s h1 h2
    cases s with
    | nil => cases f2 <;> rfl
    | cons c rest =>
      cases f2 with
      | zero => simp at h2
      | succ f2 =>
        show findallFuel (f1 + 1) (c :: rest) = findallFuel (f2 + 1) (c :: rest)
        unfold findallFuel
        cases hm : matchPatternAt (c :: rest) with
        | none =>
          simp only [Option.elim]
          exact ih f2 rest (by simpa using h1) (by simpa using h2)
        | some mr =>
          simp only [Option.elim]
          obtain ⟨hmr, hne⟩ := matchPatternAt_some hm
          have hl := congrArg List.length hmr
          simp only [List.length_append, List.length_cons] at hl
          simp only [List.length_cons] at h1 h2
          have hpos : 1 ≤ mr.1.length := List.length_pos.mpr hne
          rw [ih f2 mr.2 (by omega) (by omega)]

theorem findall_nil : findall [] = [] := rfl

theorem findall_cons_some {c : Char} {rest m r : List Char}
    (h : matchPatternAt (c :: rest) = some (m, r)) :
    findall (c :: rest) = m :: findall r := by
  obtain ⟨hmr, hne⟩ := matchPatternAt_some h
  have hl := congrArg List.length hmr
  simp only [List.length_append, List.length_cons] at hl
  have hpos : 1 ≤ m.length := List.length_pos.mpr hne
  show findallFuel (c :: rest).length (c :: rest) = m :: findall r
  simp only [List.length_cons]
  unfold findallFuel
  rw [h]
  simp only [Option.elim]
  congr 1
  exact findallFuel_stable rest.length r.length r (by omega) (by omega)

theorem findall_cons_none {c : Char} {rest : List Char}
    (h : matchPatternAt (c :: rest) = none) :
    findall (c :: rest) = findall rest := by
  show findallFuel (c :: rest).length (c :: rest) = findall rest
  simp only [List.length_cons]
  unfold findallFuel
  rw [h]
  simp only [Option.elim]
  rfl

theorem removeOccFuel_stable (pat : List Char) (hp : pat ≠ []) (f1 : Nat) :
    ∀ (f2 : Nat) (s : List Char),
    s.length ≤ f1 → s.length ≤ f2 → removeOccFuel pat f1 s = removeOccFuel pat f2 s := by
  have hpp : 1 ≤ pat.length := List.length_pos.mpr hp
  induction f1 with
  | zero =>
    intro f2 s h1 _
    have hs : s = [] := List.eq_nil_of_length_eq_zero (by omega)
    subst hs
    cases f2 <;> rfl
  | succ f1 ih =>
    intro f2 s h1 h2
    cases s with
    | nil => cases f2 <;> rfl
    | cons c rest =>
      cases f2 with
      | zero => simp at h2
      | succ f2 =>
        show removeOccFuel pat (f1 + 1) (c :: rest) = removeOccFuel pat (f2 + 1) (c :: rest)
        unfold removeOccFuel
        split
        · have hlen : ((c :: rest).drop pat.length).length ≤ rest.length := by
            simp only [List.length_drop, List.length_cons]
            omega
          exact ih f2 _ (by simp at h1 ⊢; omega) (by simp at h2 ⊢; omega)
        · rw [ih f2 rest (by simpa using h1) (by simpa using h2)]

theorem removeOcc_nil (pat : List Char) : removeOcc pat [] = [] := rfl

theorem removeOcc_cons_match {pat : List Char} (hp : pat ≠ []) {c : Char} {rest : List Char}
    (h : startsWith pat (c :: rest) = true) :
    removeOcc pat (c :: rest) = removeOcc pat ((c :: rest).drop pat.length) := by
  have hpp : 1 ≤ pat.length := List.length_pos.mpr hp
  show removeOccFuel pat (c :: rest).length (c :: rest) = _
  simp only [List.length_cons]
  unfold removeOccFuel
  rw [if_pos h]
  apply removeOccFuel_stable pat hp
  · simp only [List.length_drop, List.length_cons]; omega
  · exact le_refl _

theorem removeOcc_cons_nomatch {pat : List Char} (hp : pat ≠ []) {c : Char} {rest : List Char}
    (h : startsWith pat (c :: rest) = false) :
    removeOcc pat (c :: rest) = c :: removeOcc pat rest := by
  show removeOccFuel pat (c :: rest).length (c :: rest) = _
  simp only [List.length_cons]
  unfold removeOccFuel
  rw [if_neg (by simp [h])]
  rfl

/-! ### Lemmas: the shape of scanned pieces and occurrence counting -/

theorem beq_symm_false {a b : Char} (h : (a == b) = false) : (b == a) = false := by
  simp only [beq_eq_false_iff_ne] at h ⊢
  exact fun e => h e.symm

theorem tokChar_not_lt {c : Char} (h : tokChar c = true) : (c == '<') = false := by
  unfold tokChar at h
  simp only [Bool.and_eq_true, Bool.not_eq_true'] at h
  exact h.1

theorem tokChar_not_space {c : Char} (h : tokChar c = true) : isSpaceChar c = false := by
  unfold tokChar at h
  simp only [Bool.and_eq_true, Bool.not_eq_true'] at h
  exact h.2

theorem ltOk_cons_tail {c : Char} {rest : List Char} (h : ltOk (c :: rest) = true) :
    ltOk rest = true := by
  cases rest with
  | nil => rfl
  | cons c2 t =>
    simp only [ltOk, Bool.and_eq_true] at h
    exact h.2

theorem ltOk_lt_head {rest : List Char} (h : ltOk ('<' :: rest) = true) :
    ∃ t, rest = 'm' :: t := by
  cases rest with
  | nil => simp [ltOk] at h
  | cons r0 t =>
    simp only [ltOk, Bool.and_eq_true, Bool.or_eq_true, Bool.not_eq_true', beq_iff_eq] at h
    rcases h.1 with h1 | h1
    · simp at h1
    · exact ⟨t, by rw [h1]⟩

theorem noLt_ltOk : ∀ {s : List Char}, (∀ c ∈ s, (c == '<') = false) → ltOk s = true := by
  intro s
  induction s with
  | nil => intro _; rfl
  | cons c rest ih =>
    intro h
    cases rest with
    | nil =>
      simp only [ltOk, Bool.not_eq_true']
      exact h c (by simp)
    | cons c2 t =>
      simp only [ltOk, Bool.and_eq_true, Bool.or_eq_true, Bool.not_eq_true']
      exact ⟨Or.inl (h c (by simp)), ih (fun x hx => h x (by simp [hx]))⟩

theorem ltOk_append {a b : List Char} (ha : ltOk a = true) (hb : ltOk b = true) :
    ltOk (a ++ b) = true := by
  induction a with
  | nil => simpa using hb
  | cons c rest ih =>
    cases rest with
    | nil =>
      simp only [ltOk, Bool.not_eq_true'] at ha
      cases b with
      | nil => simpa [ltOk, Bool.not_eq_true'] using ha
      | cons b0 bt =>
        simp only [List.cons_append, List.nil_append, ltOk, Bool.and_eq_true, Bool.or_eq_true,
          Bool.not_eq_true']
        exact ⟨Or.inl ha, hb⟩
    | cons c2 t =>
      simp only [ltOk, Bool.and_eq_true] at ha
      simp only [List.cons_append, ltOk, Bool.and_eq_true]
      refine ⟨?_, ih ha.2⟩
      simpa using ha.1

theorem ltOk_mark {x : List Char} (hx : ∀ c ∈ x, (c == '<') = false) :
    ltOk (markPre ++ x) = true := by
  have h1 : ∀ c ∈ ('m' :: (['a', 'r', 'k', ' ', 'n', 'a', 'm', 'e', '=', apos, 'w'] ++ x)),
      (c == '<') = false := by
    intro c hc
    rcases List.mem_cons.mp hc with rfl | hc
    · decide
    · rcases List.mem_append.mp hc with hc | hc
      · fin_cases hc <;> decide
      · exact hx c hc
  have h2 : ltOk ('m' :: (['a', 'r', 'k', ' ', 'n', 'a', 'm', 'e', '=', apos, 'w'] ++ x)) = true :=
    noLt_ltOk h1
  show ltOk ('<' :: 'm' :: (['a', 'r', 'k', ' ', 'n', 'a', 'm', 'e', '=', apos, 'w'] ++ x)) = true
  rw [show ltOk ('<' :: 'm' :: (['a', 'r', 'k', ' ', 'n', 'a', 'm', 'e', '=', apos, 'w'] ++ x)) =
      ((!('<' == '<') || ('m' == 'm')) &&
        ltOk ('m' :: (['a', 'r', 'k', ' ', 'n', 'a', 'm', 'e', '=', apos, 'w'] ++ x))) from rfl,
    h2]
  decide

theorem tryMark_ltOk {s m r : List Char} (h : tryMark s = some (m, r)) :
    ltOk (m ++ [' ']) = true := by
  unfold tryMark at h
  split at h
  · split at h
    · exact absurd h (by simp)
    · split at h
      · split at h
        · exact absurd h (by simp)
        · simp only [Option.some.injEq, Prod.mk.injEq] at h
          obtain ⟨rfl, rfl⟩ := h
          have heq : (markPre ++ (takeDigits (s.drop markPre.length)).1 ++ markSuf ++
              (takeTok ((takeDigits (s.drop markPre.length)).2.drop markSuf.length)).1) ++ [' '] =
              markPre ++ ((takeDigits (s.drop markPre.length)).1 ++ markSuf ++
              (takeTok ((takeDigits (s.drop markPre.length)).2.drop markSuf.length)).1 ++ [' ']) := by
            simp [List.append_assoc]
          rw [heq]
          apply ltOk_mark
          intro c hc
          rcases List.mem_append.mp hc with hc | hc
          · rcases List.mem_append.mp hc with hc | hc
            · rcases List.mem_append.mp hc with hc | hc
              · exact digitChar_not_lt (takeDigits_mem _ c hc)
              · fin_cases hc <;> decide
            · exact tokChar_not_lt (takeTok_mem _ c hc)
          · simp at hc; subst hc; decide
      · exact absurd h (by simp)
  · exact absurd h (by simp)

theorem matchPiece_ltOk {s m r : List Char} (h : matchPatternAt s = some (m, r)) :
    ltOk (m ++ [' ']) = true := by
  unfold matchPatternAt at h
  cases htm : tryMark s with
  | some v =>
    rw [htm] at h
    cases v with
    | mk a b =>
      simp only [Option.some.injEq, Prod.mk.injEq] at h
      obtain ⟨rfl, rfl⟩ := h
      exact tryMark_ltOk htm
  | none =>
    rw [htm] at h
    split at h
    · next mr heq => exact absurd heq (by simp)
    · split at h
      · exact absurd h (by simp)
      · simp only [Option.some.injEq, Prod.mk.injEq] at h
        obtain ⟨rfl, rfl⟩ := h
        apply noLt_ltOk
        intro c hc
        rcases List.mem_append.mp hc with hc | hc
        · exact tokChar_not_lt (takeTok_mem _ c hc)
        · simp at hc; subst hc; decide

theorem findallFuel_parts_ltOk (fuel : Nat) : ∀ (s : List Char),
    ∀ p ∈ findallFuel fuel s, ltOk (p ++ [' ']) = true := by
  induction fuel with
  | zero => intro s p hp; simp [findallFuel] at hp
  | succ fuel ih =>
    intro s p hp
    cases s with
    | nil => simp [findallFuel] at hp
    | cons c rest =>
      unfold findallFuel at hp
      cases hm : matchPatternAt (c :: rest) with
      | none =>
        rw [hm] at hp
        simp only [Option.elim] at hp
        exact ih rest p hp
      | some mr =>
        rw [hm] at hp
        simp only [Option.elim] at hp
        rcases List.mem_cons.mp hp with rfl | hp
        · exact matchPiece_ltOk (by rw [hm])
        · exact ih _ p hp

theorem findall_parts_ltOk (s : List Char) :
    ∀ p ∈ findall s, ltOk (p ++ [' ']) = true :=
  findallFuel_parts_ltOk s.length s

theorem countOcc_cons (pat : List Char) (c : Char) (rest : List Char) :
    countOcc pat (c :: rest) = (if startsWith pat (c :: rest) then 1 else 0) + countOcc pat rest :=
  rfl

theorem countOcc_skip_noLt {pat : List Char} (hpat : pat.head? = some '<') :
    ∀ {s : List Char}, (∀ c ∈ s, (c == '<') = false) →
    ∀ (t : List Char), countOcc pat (s ++ t) = countOcc pat t := by
  intro s
  induction s with
  | nil => intro _ t; rfl
  | cons c rest ih =>
    intro h t
    cases pat with
    | nil => simp at hpat
    | cons p0 pt =>
      simp only [List.head?_cons, Option.some.injEq] at hpat
      subst hpat
      have hc : ('<' == c) = false := beq_symm_false (h c (by simp))
      rw [List.cons_append, countOcc_cons, startsWith_cons_false _ _ hc]
      simpa using ih (fun x hx => h x (by simp [hx])) t

theorem countOcc_openTag_body : ∀ {m : List Char}, ltOk m = true →
    countOcc openTag (m ++ closeTag) = 0 := by
  intro m
  induction m with
  | nil => intro _; decide
  | cons c rest ih =>
    intro h
    cases hc : (c == '<') with
    | false =>
      have h2 : ('<' == c) = false := beq_symm_false hc
      rw [List.cons_append, countOcc_cons]
      rw [show startsWith openTag (c :: (rest ++ closeTag)) = false from
        startsWith_cons_false _ _ h2]
      simpa using ih (ltOk_cons_tail h)
    | true =>
      have hceq : c = '<' := by simpa using hc
      subst hceq
      obtain ⟨t, rfl⟩ := ltOk_lt_head h
      rw [List.cons_append, countOcc_cons]
      rw [show startsWith openTag ('<' :: ('m' :: t ++ closeTag)) = false from by
        simp [openTag, startsWith]]
      simpa using ih (ltOk_cons_tail h)

theorem countOcc_closeTag_body : ∀ {m : List Char}, ltOk m = true →
    countOcc closeTag (m ++ closeTag) = 1 := by
  intro m
  induction m with
  | nil => intro _; decide
  | cons c rest ih =>
    intro h
    cases hc : (c == '<') with
    | false =>
      have h2 : ('<' == c) = false := beq_symm_false hc
      rw [List.cons_append, countOcc_cons]
      rw [show startsWith closeTag (c :: (rest ++ closeTag)) = false from
        startsWith_cons_false _ _ h2]
      simpa using ih (ltOk_cons_tail h)
    | true =>
      have hceq : c = '<' := by simpa using hc
      subst hceq
      obtain ⟨t, rfl⟩ := ltOk_lt_head h
      rw [List.cons_append, countOcc_cons]
      rw [show startsWith closeTag ('<' :: ('m' :: t ++ closeTag)) = false from by
        simp [closeTag, startsWith]]
      simpa using ih (ltOk_cons_tail h)

theorem countOcc_openTag_chunk {m : List Char} (h : ltOk m = true) :
    countOcc openTag (openTag ++ m ++ closeTag) = 1 := by
  have h1 : openTag ++ m ++ closeTag =
      '<' :: (['s', 'p', 'e', 'a', 'k', '>'] ++ (m ++ closeTag)) := by
    simp [openTag, List.append_assoc]
  rw [h1, countOcc_cons]
  rw [show startsWith openTag ('<' :: (['s', 'p', 'e', 'a', 'k', '>'] ++ (m ++ closeTag))) = true
    from startsWith_append_self openTag (m ++ closeTag)]
  rw [countOcc_skip_noLt (by decide) (by intro c hc; fin_cases hc <;> decide) (m ++ closeTag)]
  rw [countOcc_openTag_body h]
  decide

theorem countOcc_closeTag_chunk {m : List Char} (h : ltOk m = true) :
    countOcc closeTag (openTag ++ m ++ closeTag) = 1 := by
  have h1 : openTag ++ m ++ closeTag =
      '<' :: (['s', 'p', 'e', 'a', 'k', '>'] ++ (m ++ closeTag)) := by
    simp [openTag, List.append_assoc]
  rw [h1, countOcc_cons]
  rw [show startsWith closeTag ('<' :: (['s', 'p', 'e', 'a', 'k', '>'] ++ (m ++ closeTag))) = false
    from by simp [closeTag, startsWith]]
  rw [countOcc_skip_noLt (by decide) (by intro c hc; fin_cases hc <;> decide) (m ++ closeTag)]
  rw [countOcc_closeTag_body h]
  decide

theorem chunkLoop_form (mb : Nat) : ∀ (parts : List (List Char)) (m : List Char),
    ltOk m = true → (∀ p ∈ parts, ltOk (p ++ [' ']) = true) →
    ∀ chunk ∈ chunkLoop mb parts (openTag ++ m),
      ∃ mid, chunk = openTag ++ mid ++ closeTag ∧ ltOk mid = true := by
  intro parts
  induction parts with
  | nil =>
    intro m hm _ chunk hc
    simp only [chunkLoop, List.mem_singleton] at hc
    exact ⟨m, by simpa [List.append_assoc] using hc, hm⟩
  | cons p rest ih =>
    intro m hm hparts chunk hc
    unfold chunkLoop at hc
    split at hc
    · rcases List.mem_cons.mp hc with rfl | hc
      · exact ⟨m, by simp [List.append_assoc], hm⟩
      · have := ih (p ++ [' ']) (hparts p (by simp)) (fun q hq => hparts q (by simp [hq]))
        exact this chunk hc
    · have hc2 : chunk ∈ chunkLoop mb rest (openTag ++ (m ++ (p ++ [' ']))) := by
        simpa [List.append_assoc] using hc
      exact ih (m ++ (p ++ [' '])) (ltOk_append hm (hparts p (by simp)))
        (fun q hq => hparts q (by simp [hq])) chunk hc2

/-! ### Lemmas: tag removal on well-formed documents -/

theorem drop_append_self (a b : List Char) : (a ++ b).drop a.length = b := by
  induction a with
  | nil => rfl
  | cons c t ih => simpa using ih

theorem countOcc_zero_removeOcc {pat : List Char} (hp : pat ≠ []) :
    ∀ {s : List Char}, countOcc pat s = 0 → removeOcc pat s = s := by
  intro s
  induction s with
  | nil => intro _; rfl
  | cons c rest ih =>
    intro h
    rw [countOcc_cons] at h
    cases hsw : startsWith pat (c :: rest) with
    | true => rw [hsw] at h; simp at h
    | false =>
      rw [hsw] at h
      simp at h
      rw [removeOcc_cons_nomatch hp hsw, ih h]

theorem removeOcc_append_self {pat : List Char} (hp : pat ≠ []) (t : List Char) :
    removeOcc pat (pat ++ t) = removeOcc pat t := by
  cases pat with
  | nil => exact absurd rfl hp
  | cons p0 pt =>
    have h : startsWith (p0 :: pt) (p0 :: (pt ++ t)) = true := startsWith_append_self _ _
    rw [show (p0 :: pt) ++ t = p0 :: (pt ++ t) from rfl, removeOcc_cons_match hp h]
    congr 1
    exact drop_append_self (p0 :: pt) t

theorem removeOcc_closeTag_body : ∀ {m : List Char}, ltOk m = true →
    removeOcc closeTag (m ++ closeTag) = m := by
  intro m
  induction m with
  | nil =>
    intro _
    show removeOcc closeTag closeTag = []
    have h1 := @removeOcc_append_self closeTag (by decide) []
    simpa [removeOcc_nil] using h1
  | cons c rest ih =>
    intro h
    cases hc : (c == '<') with
    | false =>
      have h2 : ('<' == c) = false := beq_symm_false hc
      rw [List.cons_append,
        removeOcc_cons_nomatch (by decide)
          (show startsWith closeTag (c :: (rest ++ closeTag)) = false from
            startsWith_cons_false _ _ h2),
        ih (ltOk_cons_tail h)]
    | true =>
      have hceq : c = '<' := by simpa using hc
      subst hceq
      obtain ⟨t, rfl⟩ := ltOk_lt_head h
      rw [List.cons_append,
        removeOcc_cons_nomatch (by decide)
          (show startsWith closeTag ('<' :: ('m' :: t ++ closeTag)) = false from by
            simp [closeTag, startsWith]),
        ih (ltOk_cons_tail h)]

theorem extractParts_wrapped {m : List Char} (h : ltOk m = true) :
    extractParts (openTag ++ m ++ closeTag) = findall m := by
  unfold extractParts
  rw [show openTag ++ m ++ closeTag = openTag ++ (m ++ closeTag) from by simp,
    removeOcc_append_self (by decide),
    countOcc_zero_removeOcc (by decide) (countOcc_openTag_body h),
    removeOcc_closeTag_body h]

/-! ### Lemmas: whitespace splitting and HTML escaping -/

theorem pySplitAux_tokens : ∀ (s acc : List Char),
    (∀ c ∈ acc, isSpaceChar c = false) →
    ∀ t ∈ pySplitAux s acc, t ≠ [] ∧ ∀ c ∈ t, isSpaceChar c = false := by
  intro s
  induction s with
  | nil =>
    intro acc hacc t ht
    unfold pySplitAux at ht
    cases acc with
    | nil => simp at ht
    | cons a as =>
      simp at ht
      subst ht
      exact ⟨by simp, hacc⟩
  | cons c rest ih =>
    intro acc hacc t ht
    unfold pySplitAux at ht
    split at ht
    · cases acc with
      | nil =>
        simp only [List.isEmpty_nil, if_true] at ht
        exact ih [] (by simp) t ht
      | cons a as =>
        simp only [List.isEmpty_cons, if_false, Bool.false_eq_true] at ht
        rcases List.mem_cons.mp ht with rfl | ht
        · exact ⟨by simp, hacc⟩
        · exact ih [] (by simp) t ht
    · next hsp =>
      refine ih (acc ++ [c]) ?_ t ht
      intro x hx
      rcases List.mem_append.mp hx with hx | hx
      · exact hacc x hx
      · simp at hx; subst hx; simpa using hsp

theorem pySplit_tokens (s : List Char) :
    ∀ t ∈ pySplit s, t ≠ [] ∧ ∀ c ∈ t, isSpaceChar c = false :=
  pySplitAux_tokens s [] (by simp)

theorem dropWhile_id {l : List Char} (h : ∀ c ∈ l, isSpaceChar c = false) :
    l.dropWhile isSpaceChar = l := by
  cases l with
  | nil => rfl
  | cons c rest => simp [List.dropWhile_cons, h c (by simp)]

theorem pyStrip_id {w : List Char} (h : ∀ c ∈ w, isSpaceChar c = false) : pyStrip w = w := by
  unfold pyStrip
  rw [dropWhile_id h, dropWhile_id (by intro c hc; exact h c (List.mem_reverse.mp hc)),
    List.reverse_reverse]

theorem escapeChar_ne_nil (c : Char) : escapeChar c ≠ [] := by
  unfold escapeChar
  repeat' split
  all_goals simp

theorem escapeChar_tokChar {c : Char} (h : isSpaceChar c = false) :
    ∀ d ∈ escapeChar c, tokChar d = true := by
  intro d hd
  unfold escapeChar at hd
  split at hd
  · fin_cases hd <;> decide
  · split at hd
    · fin_cases hd <;> decide
    · split at hd
      · fin_cases hd <;> decide
      · split at hd
        · fin_cases hd <;> decide
        · split at hd
          · fin_cases hd <;> decide
          · next h1 h2 h3 h4 h5 =>
            simp only [List.mem_singleton] at hd
            subst hd
            unfold tokChar
            simp only [Bool.and_eq_true, Bool.not_eq_true']
            exact ⟨by simpa using h2, h⟩

theorem htmlEscape_tokChar {w : List Char} (h : ∀ c ∈ w, isSpaceChar c = false) :
    ∀ d ∈ htmlEscape w, tokChar d = true := by
  intro d hd
  unfold htmlEscape at hd
  rw [List.mem_flatten] at hd
  obtain ⟨l, hl, hdl⟩ := hd
  rw [List.mem_map] at hl
  obtain ⟨c, hc, rfl⟩ := hl
  exact escapeChar_tokChar (h c hc) d hdl

theorem htmlEscape_ne_nil {w : List Char} (h : w ≠ []) : htmlEscape w ≠ [] := by
  cases w with
  | nil => exact absurd rfl h
  | cons c rest =>
    unfold htmlEscape
    simp only [List.map_cons, List.flatten_cons]
    intro hcontra
    exact escapeChar_ne_nil c (List.append_eq_nil.mp hcontra).1

/-! ### Lemmas: the scanner on builder output -/

theorem matchPatternAt_space (B : List Char) : matchPatternAt (' ' :: B) = none := by
  have htm : tryMark (' ' :: B) = none := by
    unfold tryMark
    rw [show startsWith markPre (' ' :: B) = false from startsWith_cons_false _ _ (by decide)]
    simp
  have ht : takeTok (' ' :: B) = ([], ' ' :: B) := by
    unfold takeTok
    rw [show tokChar ' ' = false from by decide]
    simp
  unfold matchPatternAt
  rw [htm, ht]
  rfl

theorem matchPatternAt_bare {tok : List Char} (htc : ∀ c ∈ tok, tokChar c = true)
    (hne : tok ≠ []) (B : List Char) :
    matchPatternAt (tok ++ ' ' :: B) = some (tok, ' ' :: B) := by
  have ht : takeTok (tok ++ ' ' :: B) = (tok, ' ' :: B) := takeTok_of_run htc (by decide) B
  have htm : tryMark (tok ++ ' ' :: B) = none := by
    cases tok with
    | nil => exact absurd rfl hne
    | cons t0 tt =>
      unfold tryMark
      have h0 : ('<' == t0) = false := beq_symm_false (tokChar_not_lt (htc t0 (by simp)))
      rw [show (t0 :: tt) ++ ' ' :: B = t0 :: (tt ++ ' ' :: B) from rfl,
        show startsWith markPre (t0 :: (tt ++ ' ' :: B)) = false from
          startsWith_cons_false _ _ h0]
      simp
  unfold matchPatternAt
  rw [htm, ht]
  cases tok with
  | nil => exact absurd rfl hne
  | cons t0 tt => simp

theorem matchPatternAt_marked (i : Nat) {tok : List Char} (htc : ∀ c ∈ tok, tokChar c = true)
    (hne : tok ≠ []) (B : List Char) :
    matchPatternAt ((markTag i ++ tok) ++ ' ' :: B) = some (markTag i ++ tok, ' ' :: B) := by
  have hs : (markTag i ++ tok) ++ ' ' :: B =
      markPre ++ (natDigits i ++ (markSuf ++ (tok ++ ' ' :: B))) := by
    simp [markTag, List.append_assoc]
  have hd1 : takeDigits (natDigits i ++ (markSuf ++ (tok ++ ' ' :: B))) =
      (natDigits i, markSuf ++ (tok ++ ' ' :: B)) :=
    takeDigits_of_run (fun c hc => mem_natDigits_digit i c hc) (by decide)
      ('/' :: '>' :: (tok ++ ' ' :: B))
  have ht2 : takeTok (tok ++ ' ' :: B) = (tok, ' ' :: B) := takeTok_of_run htc (by decide) B
  have htm : tryMark (markPre ++ (natDigits i ++ (markSuf ++ (tok ++ ' ' :: B)))) =
      some (markPre ++ natDigits i ++ markSuf ++ tok, ' ' :: B) := by
    unfold tryMark
    rw [if_pos (show startsWith markPre
        (markPre ++ (natDigits i ++ (markSuf ++ (tok ++ ' ' :: B)))) = true from
      startsWith_append_self _ _)]
    rw [drop_append_self markPre (natDigits i ++ (markSuf ++ (tok ++ ' ' :: B)))]
    rw [hd1]
    dsimp only
    rw [if_neg (natDigits_ne_nil i)]
    rw [if_pos (show startsWith markSuf (markSuf ++ (tok ++ ' ' :: B)) = true from
      startsWith_append_self _ _)]
    rw [drop_append_self markSuf (tok ++ ' ' :: B)]
    rw [ht2]
    dsimp only
    rw [if_neg hne]
  rw [hs]
  unfold matchPatternAt
  rw [htm]
  dsimp only
  rw [show markPre ++ natDigits i ++ markSuf ++ tok = markTag i ++ tok from by
    simp [markTag, List.append_assoc]]

theorem findall_piece {piece B : List Char} (hne : piece ≠ [])
    (hm : matchPatternAt (piece ++ ' ' :: B) = some (piece, ' ' :: B)) :
    findall (piece ++ ' ' :: B) = piece :: findall B := by
  cases piece with
  | nil => exact absurd rfl hne
  | cons q0 qrest =>
    rw [show (q0 :: qrest) ++ ' ' :: B = q0 :: (qrest ++ ' ' :: B) from rfl] at hm ⊢
    rw [findall_cons_some hm]
    congr 1

/-! ### Lemmas: the builder's document and its pieces -/

theorem joinSp_nil : joinSp [] = [] := rfl

theorem joinSp_cons (p : List Char) (ps : List (List Char)) :
    joinSp (p :: ps) = (p ++ [' ']) ++ joinSp ps := by
  simp [joinSp]

theorem ssmlBody_joinSp : ∀ (ws : List (List Char)) (i : Nat),
    ssmlBody i ws = joinSp (piecesOf i ws) := by
  intro ws
  induction ws with
  | nil => intro i; rfl
  | cons w rest ih =>
    intro i
    show (if (pyStrip w).any isAlnumChar then markTag i ++ htmlEscape (pyStrip w) ++ [' ']
       else htmlEscape (pyStrip w) ++ [' ']) ++ ssmlBody (i + 1) rest = _
    rw [show piecesOf i (w :: rest) =
      (if (pyStrip w).any isAlnumChar then markTag i ++ htmlEscape (pyStrip w)
       else htmlEscape (pyStrip w)) :: piecesOf (i + 1) rest from rfl]
    rw [joinSp_cons, ih (i + 1)]
    cases hmk : (pyStrip w).any isAlnumChar <;> simp [hmk, List.append_assoc]

theorem tokRun_noLt {t : List Char} (ht : ∀ c ∈ t, tokChar c = true) :
    ∀ c ∈ t ++ [' '], (c == '<') = false := by
  intro c hc
  rcases List.mem_append.mp hc with hc | hc
  · exact tokChar_not_lt (ht c hc)
  · simp at hc; subst hc; decide

theorem markedPiece_ltOk (i : Nat) {tok : List Char} (htc : ∀ c ∈ tok, tokChar c = true) :
    ltOk ((markTag i ++ tok) ++ [' ']) = true := by
  rw [show (markTag i ++ tok) ++ [' '] =
    markPre ++ (natDigits i ++ (markSuf ++ (tok ++ [' ']))) from by
      simp [markTag, List.append_assoc]]
  apply ltOk_mark
  intro c hc
  rcases List.mem_append.mp hc with hc | hc
  · exact digitChar_not_lt (mem_natDigits_digit i c hc)
  · rcases List.mem_append.mp hc with hc | hc
    · fin_cases hc <;> decide
    · exact tokRun_noLt htc c hc

theorem piecesOf_ltOk : ∀ (ws : List (List Char)) (i : Nat),
    (∀ w ∈ ws, w ≠ [] ∧ ∀ c ∈ w, isSpaceChar c = false) →
    ∀ p ∈ piecesOf i ws, ltOk (p ++ [' ']) = true := by
  intro ws
  induction ws with
  | nil => intro i _ p hp; simp [piecesOf] at hp
  | cons w rest ih =>
    intro i h p hp
    rw [show piecesOf i (w :: rest) =
      (if (pyStrip w).any isAlnumChar then markTag i ++ htmlEscape (pyStrip w)
       else htmlEscape (pyStrip w)) :: piecesOf (i + 1) rest from rfl] at hp
    rcases List.mem_cons.mp hp with rfl | hp
    · obtain ⟨hwne, hwns⟩ := h w (by simp)
      rw [pyStrip_id hwns]
      have hesc : ∀ c ∈ htmlEscape w, tokChar c = true := htmlEscape_tokChar hwns
      cases hmk : w.any isAlnumChar with
      | true => rw [if_pos rfl]; exact markedPiece_ltOk i hesc
      | false => rw [if_neg (by simp)]; exact noLt_ltOk (tokRun_noLt hesc)
    · exact ih (i + 1) (fun x hx => h x (by simp [hx])) p hp

theorem joinSp_ltOk : ∀ {parts : List (List Char)},
    (∀ p ∈ parts, ltOk (p ++ [' ']) = true) → ltOk (joinSp parts) = true := by
  intro parts
  induction parts with
  | nil => intro _; rfl
  | cons p ps ih =>
    intro h
    rw [joinSp_cons]
    exact ltOk_append (h p (by simp)) (ih (fun q hq => h q (by simp [hq])))

theorem ssmlBody_ltOk (s : List Char) : ltOk (ssmlBody 0 (pySplit s)) = true := by
  rw [ssmlBody_joinSp]
  exact joinSp_ltOk (piecesOf_ltOk (pySplit s) 0 (pySplit_tokens s))

theorem findall_ssmlBody : ∀ (ws : List (List Char)) (i : Nat),
    (∀ w ∈ ws, w ≠ [] ∧ ∀ c ∈ w, isSpaceChar c = false) →
    findall (ssmlBody i ws) = piecesOf i ws := by
  intro ws
  induction ws with
  | nil => intro i _; rfl
  | cons w rest ih =>
    intro i h
    obtain ⟨hwne, hwns⟩ := h w (by simp)
    have hesc : ∀ c ∈ htmlEscape w, tokChar c = true := htmlEscape_tokChar hwns
    have hescne : htmlEscape w ≠ [] := htmlEscape_ne_nil hwne
    have hrest := ih (i + 1) (fun x hx => h x (by simp [hx]))
    show findall ((if (pyStrip w).any isAlnumChar then markTag i ++ htmlEscape (pyStrip w) ++ [' ']
       else htmlEscape (pyStrip w) ++ [' ']) ++ ssmlBody (i + 1) rest) =
      (if (pyStrip w).any isAlnumChar then markTag i ++ htmlEscape (pyStrip w)
       else htmlEscape (pyStrip w)) :: piecesOf (i + 1) rest
    rw [pyStrip_id hwns]
    cases hmk : w.any isAlnumChar with
    | true =>
      rw [if_pos rfl, if_pos rfl]
      rw [show (markTag i ++ htmlEscape w ++ [' ']) ++ ssmlBody (i + 1) rest =
        (markTag i ++ htmlEscape w) ++ ' ' :: ssmlBody (i + 1) rest from by
          simp [List.append_assoc]]
      rw [findall_piece (by simp [markTag, markPre]) (matchPatternAt_marked i hesc hescne _)]
      rw [hrest]
    | false =>
      rw [if_neg (by simp), if_neg (by simp)]
      rw [show (htmlEscape w ++ [' ']) ++ ssmlBody (i + 1) rest =
        htmlEscape w ++ ' ' :: ssmlBody (i + 1) rest from by simp [List.append_assoc]]
      rw [findall_piece hescne (matchPatternAt_bare hesc hescne _)]
      rw [hrest]

theorem extractParts_builder (s : List Char) :
    extractParts (create_ssml_with_timing s) = piecesOf 0 (pySplit s) := by
  unfold create_ssml_with_timing
  rw [extractParts_wrapped (ssmlBody_ltOk s)]
  exact findall_ssmlBody (pySplit s) 0 (pySplit_tokens s)

/-! ### Lemmas: stripping the wrappers and the chunk loop round trip -/

theorem take_append_self (a b : List Char) : (a ++ b).take a.length = a := by
  induction a with
  | nil => rfl
  | cons c t ih => simpa using ih

theorem stripWrap_wrapped (m : List Char) : stripWrap (openTag ++ m ++ closeTag) = m := by
  unfold stripWrap
  have h1 : (openTag ++ m ++ closeTag).length - 8 = (openTag ++ m).length := by
    simp [openTag, closeTag]
  rw [h1, show openTag ++ m ++ closeTag = (openTag ++ m) ++ closeTag from rfl,
    take_append_self]
  exact drop_append_self openTag m

theorem chunkLoop_strip (mb : Nat) : ∀ (parts : List (List Char)) (m : List Char),
    ((chunkLoop mb parts (openTag ++ m)).map stripWrap).flatten = m ++ joinSp parts := by
  intro parts
  induction parts with
  | nil =>
    intro m
    show ([stripWrap ((openTag ++ m) ++ closeTag)]).flatten = m ++ joinSp []
    rw [show (openTag ++ m) ++ closeTag = openTag ++ m ++ closeTag from rfl,
      stripWrap_wrapped]
    simp [joinSp_nil]
  | cons p rest ih =>
    intro m
    unfold chunkLoop
    split
    · rw [List.map_cons, List.flatten_cons,
        show (openTag ++ m) ++ closeTag = openTag ++ m ++ closeTag from rfl,
        stripWrap_wrapped, ih (p ++ [' ']), joinSp_cons]
    · rw [show (openTag ++ m) ++ (p ++ [' ']) = openTag ++ (m ++ (p ++ [' '])) from by
        simp [List.append_assoc],
        ih (m ++ (p ++ [' '])), joinSp_cons]
      simp [List.append_assoc]

/-! ### Lemmas: marker ids of builder documents -/

theorem parseMarkId_marked (i : Nat) {tok : List Char} (htc : ∀ c ∈ tok, tokChar c = true) :
    parseMarkId (markTag i ++ tok) = some i := by
  unfold parseMarkId
  rw [show markTag i ++ tok = markPre ++ (natDigits i ++ (markSuf ++ tok)) from by
    simp [markTag, List.append_assoc]]
  rw [if_pos (startsWith_append_self _ _)]
  rw [drop_append_self markPre (natDigits i ++ (markSuf ++ tok))]
  rw [show markSuf ++ tok = apos :: ('/' :: '>' :: tok) from rfl]
  rw [takeDigits_of_run (fun c hc => mem_natDigits_digit i c hc) (by decide)
    ('/' :: '>' :: tok)]
  dsimp only
  rw [digitsToNat_natDigits]

theorem parseMarkId_bare {tok : List Char} (htc : ∀ c ∈ tok, tokChar c = true)
    (hne : tok ≠ []) : parseMarkId tok = none := by
  cases tok with
  | nil => exact absurd rfl hne
  | cons t0 tt =>
    unfold parseMarkId
    have hsw : startsWith markPre (t0 :: tt) = false := by
      rw [show markPre = '<' :: ['m', 'a', 'r', 'k', ' ', 'n', 'a', 'm', 'e', '=', apos, 'w']
        from rfl]
      exact startsWith_cons_false _ _ (beq_symm_false (tokChar_not_lt (htc t0 (by simp))))
    rw [hsw]
    simp

theorem piecesOf_parse : ∀ (ws : List (List Char)) (i : Nat),
    (∀ w ∈ ws, w ≠ [] ∧ ∀ c ∈ w, isSpaceChar c = false) →
    (piecesOf i ws).filterMap parseMarkId = markIdsAux i ws := by
  intro ws
  induction ws with
  | nil => intro i _; rfl
  | cons w rest ih =>
    intro i h
    obtain ⟨hwne, hwns⟩ := h w (by simp)
    have hesc : ∀ c ∈ htmlEscape w, tokChar c = true := htmlEscape_tokChar hwns
    have hrest := ih (i + 1) (fun x hx => h x (by simp [hx]))
    show ((if (pyStrip w).any isAlnumChar then markTag i ++ htmlEscape (pyStrip w)
       else htmlEscape (pyStrip w)) :: piecesOf (i + 1) rest).filterMap parseMarkId =
      markIdsAux i (w :: rest)
    rw [pyStrip_id hwns]
    unfold markIdsAux
    rw [pyStrip_id hwns]
    cases hmk : w.any isAlnumChar with
    | true =>
      rw [if_pos rfl, if_pos rfl, List.filterMap_cons,
        parseMarkId_marked i hesc, hrest]
    | false =>
      rw [if_neg (by simp), if_neg (by simp), List.filterMap_cons,
        parseMarkId_bare hesc (htmlEscape_ne_nil hwne), hrest]

theorem extractIds_builder (s : List Char) :
    extractIds (create_ssml_with_timing s) = markIdsAux 0 (pySplit s) := by
  unfold extractIds
  rw [extractParts_builder]
  exact piecesOf_parse (pySplit s) 0 (pySplit_tokens s)

theorem markIdsAux_lb : ∀ (ws : List (List Char)) (i : Nat), ∀ j ∈ markIdsAux i ws, i ≤ j := by
  intro ws
  induction ws with
  | nil => intro i j hj; simp [markIdsAux] at hj
  | cons w rest ih =>
    intro i j hj
    unfold markIdsAux at hj
    split at hj
    · rcases List.mem_cons.mp hj with rfl | hj
      · exact le_refl j
      · have := ih (i + 1) j hj; omega
    · have := ih (i + 1) j hj; omega

theorem markIdsAux_pairwise : ∀ (ws : List (List Char)) (i : Nat),
    List.Pairwise (· < ·) (markIdsAux i ws) := by
  intro ws
  induction ws with
  | nil => intro i; simp [markIdsAux]
  | cons w rest ih =>
    intro i
    unfold markIdsAux
    split
    · exact List.Pairwise.cons (fun j hj => by have := markIdsAux_lb rest (i + 1) j hj; omega)
        (ih (i + 1))
    · exact ih (i + 1)

/-! ### Lemmas: chunk byte bounds and chunk counts -/

theorem utf8Len_piece (cur p : List Char) :
    utf8Len (cur ++ (p ++ [' ']) ++ closeTag) = utf8Len cur + utf8Len p + 9 := by
  simp only [utf8Len_append, utf8Len_closeTag, utf8Len_space]
  omega

theorem utf8Len_seed (p : List Char) :
    utf8Len (openTag ++ (p ++ [' '])) = 8 + utf8Len p := by
  simp only [utf8Len_append, utf8Len_openTag, utf8Len_space]
  omega

theorem chunkLoop_le (mb : Nat) : ∀ (parts : List (List Char)) (cur : List Char),
    utf8Len cur + 8 ≤ mb → (∀ p ∈ parts, utf8Len p + 16 ≤ mb) →
    ∀ chunk ∈ chunkLoop mb parts cur, utf8Len chunk ≤ mb := by
  intro parts
  induction parts with
  | nil =>
    intro cur hcur _ chunk hc
    simp only [chunkLoop, List.mem_singleton] at hc
    subst hc
    rw [utf8Len_append, utf8Len_closeTag]
    omega
  | cons p rest ih =>
    intro cur hcur hparts chunk hc
    unfold chunkLoop at hc
    split at hc
    · rcases List.mem_cons.mp hc with rfl | hc
      · rw [utf8Len_append, utf8Len_closeTag]; omega
      · refine ih (openTag ++ (p ++ [' '])) ?_ (fun q hq => hparts q (by simp [hq])) chunk hc
        rw [utf8Len_seed]
        have := hparts p (by simp)
        omega
    · next hno =>
      rw [utf8Len_piece] at hno
      refine ih (cur ++ (p ++ [' '])) ?_ (fun q hq => hparts q (by simp [hq])) chunk hc
      simp only [utf8Len_append, utf8Len_space]
      omega

theorem chunkLoop_length (mb : Nat) : ∀ (parts : List (List Char)) (cur : List Char),
    (chunkLoop mb parts cur).length = countChunks mb (utf8Len cur) parts := by
  intro parts
  induction parts with
  | nil => intro cur; rfl
  | cons p rest ih =>
    intro cur
    unfold chunkLoop countChunks
    rw [utf8Len_piece]
    split
    · rw [List.length_cons, ih (openTag ++ (p ++ [' '])), utf8Len_seed]
      omega
    · rw [ih (cur ++ (p ++ [' ']))]
      congr 1
      simp only [utf8Len_append, utf8Len_space]
      omega

theorem countChunks_budget (mb : Nat) : ∀ (parts : List (List Char)),
    (∀ b b' : Nat, 7 ≤ b' → b' ≤ b →
      countChunks mb b' parts ≤ countChunks mb b parts) ∧
    (∀ b b'' : Nat, 7 ≤ b'' → b'' ≤ b →
      countChunks mb b parts ≤ 1 + countChunks mb b'' parts) := by
  intro parts
  induction parts with
  | nil => constructor <;> intro b b' _ _ <;> simp [countChunks]
  | cons p rest ih =>
    obtain ⟨ih1, ih3⟩ := ih
    constructor
    · intro b b' hb7 hbb
      unfold countChunks
      by_cases h1 : b' + utf8Len p + 9 > mb
      · rw [if_pos h1, if_pos (by omega)]
      · by_cases h2 : b + utf8Len p + 9 > mb
        · rw [if_neg h1, if_pos h2]
          exact ih3 (b' + utf8Len p + 1) (8 + utf8Len p) (by omega) (by omega)
        · rw [if_neg h1, if_neg h2]
          exact ih1 (b + utf8Len p + 1) (b' + utf8Len p + 1) (by omega) (by omega)
    · intro b b'' hb7 hbb
      unfold countChunks
      by_cases h2 : b'' + utf8Len p + 9 > mb
      · rw [if_pos (by omega : b + utf8Len p + 9 > mb), if_pos h2]
        omega
      · by_cases h1 : b + utf8Len p + 9 > mb
        · rw [if_pos h1, if_neg h2]
          have := ih1 (b'' + utf8Len p + 1) (8 + utf8Len p) (by omega) (by omega)
          omega
        · rw [if_neg h1, if_neg h2]
          exact ih3 (b + utf8Len p + 1) (b'' + utf8Len p + 1) (by omega) (by omega)

theorem countChunks_ceiling {mb1 mb2 : Nat} (hm : mb1 ≤ mb2) : ∀ (parts : List (List Char))
    (b : Nat), 7 ≤ b → countChunks mb2 b parts ≤ countChunks mb1 b parts := by
  intro parts
  induction parts with
  | nil => intro b _; simp [countChunks]
  | cons p rest ih =>
    intro b hb
    unfold countChunks
    by_cases h2 : b + utf8Len p + 9 > mb2
    · rw [if_pos (by omega : b + utf8Len p + 9 > mb1), if_pos h2]
      have := ih (8 + utf8Len p) (by omega)
      omega
    · by_cases h1 : b + utf8Len p + 9 > mb1
      · rw [if_pos h1, if_neg h2]
        have ha := (countChunks_budget mb2 rest).2 (b + utf8Len p + 1) (8 + utf8Len p)
          (by omega) (by omega)
        have hb2 := ih (8 + utf8Len p) (by omega)
        omega
      · rw [if_neg h1, if_neg h2]
        exact ih (b + utf8Len p + 1) (by omega)

/-! ### Lemmas: the timeline merger -/

theorem renumber_local {τ : Type} (offset : Nat) {tps : List (TimingPoint τ)}
    (h : localLabels tps) :
    (tps.map (renumberTimepoint offset)).map TimingPoint.mark_name =
      (List.range tps.length).map (fun j => 'w' :: natDigits (offset + j)) := by
  unfold localLabels at h
  rw [List.map_map]
  have hcomp : (TimingPoint.mark_name ∘ @renumberTimepoint τ offset) =
      (fun nm => 'w' :: natDigits (offset + digitsToNat (nm.drop 1))) ∘
        TimingPoint.mark_name := by
    funext tp
    rfl
  rw [hcomp, ← List.map_map, h, List.map_map]
  apply List.map_congr_left
  intro j _
  show 'w' :: natDigits (offset + digitsToNat (('w' :: natDigits j).drop 1)) =
    'w' :: natDigits (offset + j)
  rw [show ('w' :: natDigits j).drop 1 = natDigits j from rfl, digitsToNat_natDigits]

theorem mergeLoop_length {τ : Type} : ∀ (chunks : List (List (TimingPoint τ))) (offset : Nat),
    (mergeLoop offset chunks).length = (chunks.map List.length).sum := by
  intro chunks
  induction chunks with
  | nil => intro offset; rfl
  | cons tps rest ih =>
    intro offset
    unfold mergeLoop
    simp [ih (offset + tps.length)]

theorem mergeLoop_labels {τ : Type} : ∀ (chunks : List (List (TimingPoint τ))) (offset : Nat),
    (∀ tps ∈ chunks, localLabels tps) →
    (mergeLoop offset chunks).map TimingPoint.mark_name =
      (List.range ((chunks.map List.length).sum)).map
        (fun j => 'w' :: natDigits (offset + j)) := by
  intro chunks
  induction chunks with
  | nil => intro offset _; rfl
  | cons tps rest ih =>
    intro offset h
    unfold mergeLoop
    rw [List.map_append, renumber_local offset (h tps (by simp)),
      ih (offset + tps.length) (fun q hq => h q (by simp [hq]))]
    rw [show (((tps :: rest).map List.length).sum) =
      tps.length + ((rest.map List.length).sum) from by simp]
    rw [List.range_add, List.map_append, List.map_map]
    congr 1
    apply List.map_congr_left
    intro j _
    show 'w' :: natDigits (offset + tps.length + j) =
      'w' :: natDigits (offset + (tps.length + j))
    rw [Nat.add_assoc]

/-! ### Lemmas: the text normalizer -/

theorem dropWhile_head {p : Char → Bool} : ∀ {l : List Char} {c : Char} {t : List Char},
    l.dropWhile p = c :: t → p c = false := by
  intro l
  induction l with
  | nil => intro c t h; simp at h
  | cons a rest ih =>
    intro c t h
    rw [List.dropWhile_cons] at h
    split at h
    · exact ih h
    · next hpa =>
      simp only [List.cons.injEq] at h
      obtain ⟨rfl, rfl⟩ := h
      simpa using hpa

theorem dropWhile_is_suffix (p : Char → Bool) : ∀ (l : List Char),
    ∃ u, u ++ l.dropWhile p = l := by
  intro l
  induction l with
  | nil => exact ⟨[], rfl⟩
  | cons a rest ih =>
    rw [List.dropWhile_cons]
    split
    · obtain ⟨u, hu⟩ := ih
      exact ⟨a :: u, by simp [hu]⟩
    · exact ⟨[], rfl⟩

theorem pyStrip_head {x : List Char} {c : Char} {t : List Char} (h : pyStrip x = c :: t) :
    isSpaceChar c = false := by
  unfold pyStrip at h
  obtain ⟨u, hu⟩ := dropWhile_is_suffix isSpaceChar (x.dropWhile isSpaceChar).reverse
  have hd : x.dropWhile isSpaceChar = (c :: t) ++ u.reverse := by
    have h2 : (x.dropWhile isSpaceChar).reverse.reverse =
        (u ++ (x.dropWhile isSpaceChar).reverse.dropWhile isSpaceChar).reverse := by
      rw [hu]
    rw [List.reverse_reverse, List.reverse_append, h] at h2
    exact h2
  exact dropWhile_head (by rw [hd]; rfl)

theorem filterLines_mem : ∀ (lines : List (List Char)) (b : Bool), ∀ l ∈ filterLines b lines,
    ∃ c t, l = c :: t ∧ isSpaceChar c = false := by
  intro lines
  induction lines with
  | nil => intro b l hl; simp [filterLines] at hl
  | cons line rest ih =>
    intro b l hl
    unfold filterLines at hl
    split at hl
    · exact ih b l hl
    · split at hl
      · exact ih true l hl
      · split at hl
        · exact ih false l hl
        · next hemp _ _ =>
          rcases List.mem_cons.mp hl with rfl | hl
          · cases hps : pyStrip line with
            | nil => rw [hps] at hemp; simp at hemp
            | cons c t => exact ⟨c, t, rfl, pyStrip_head hps⟩
          · exact ih false l hl

theorem joinWithSpaces_cons_shape (l : List Char) (ls : List (List Char)) :
    ∃ r, joinWithSpaces (l :: ls) = l ++ r := by
  cases ls with
  | nil => exact ⟨[], by simp [joinWithSpaces]⟩
  | cons l2 ls2 => exact ⟨' ' :: joinWithSpaces (l2 :: ls2), rfl⟩

theorem pySplitAux_ne_nil : ∀ (s acc : List Char),
    ((∃ c ∈ s, isSpaceChar c = false) ∨ acc ≠ []) → pySplitAux s acc ≠ [] := by
  intro s
  induction s with
  | nil =>
    intro acc h
    rcases h with h | h
    · simp at h
    · unfold pySplitAux
      rw [if_neg (by simpa using h)]
      simp
  | cons c rest ih =>
    intro acc h
    unfold pySplitAux
    split
    · next hsp =>
      cases hacc : acc.isEmpty with
      | true =>
        rw [if_pos rfl]
        refine ih [] (Or.inl ?_)
        rcases h with h | h
        · obtain ⟨d, hd, hds⟩ := h
          rcases List.mem_cons.mp hd with rfl | hd
          · rw [hsp] at hds; simp at hds
          · exact ⟨d, hd, hds⟩
        · rw [List.isEmpty_iff] at hacc; exact absurd hacc h
      | false => rw [if_neg (by simp)]; simp
    · exact ih (acc ++ [c]) (Or.inr (by simp))

theorem read_and_prepare_story_empty_iff (lines : List (List Char)) :
    read_and_prepare_story lines = [] ↔ filterLines false lines = [] := by
  constructor
  · intro h
    cases hfl : filterLines false lines with
    | nil => rfl
    | cons l ls =>
      exfalso
      obtain ⟨c, t, rfl, hc⟩ := filterLines_mem lines false l (by rw [hfl]; simp)
      obtain ⟨r, hr⟩ := joinWithSpaces_cons_shape (c :: t) ls
      unfold read_and_prepare_story at h
      rw [hfl, hr] at h
      have hsplit : pySplit ((c :: t) ++ r) ≠ [] := by
        unfold pySplit pySplitAux
        rw [show (c :: t) ++ r = c :: (t ++ r) from rfl]
        show (if isSpaceChar c = true then _ else _) ≠ []
        rw [if_neg (by simp [hc])]
        exact pySplitAux_ne_nil (t ++ r) [c] (Or.inr (by simp))
      cases hsp : pySplit ((c :: t) ++ r) with
      | nil => exact hsplit hsp
      | cons tk tks =>
        obtain ⟨tkne, _⟩ := pySplit_tokens ((c :: t) ++ r) tk (by rw [hsp]; simp)
        obtain ⟨r2, hr2⟩ := joinWithSpaces_cons_shape tk tks
        rw [hsp, hr2] at h
        cases tk with
        | nil => exact tkne rfl
        | cons d dt => simp at h
  · intro h
    unfold read_and_prepare_story
    rw [h]
    rfl

/-! ### Lemmas: per-configuration aggregation in `create_audio` -/

theorem filterMap_proj {α β : Type} (g : α → Option β) (proj : β → α) (ok : α → Bool)
    (hsome : ∀ a b, g a = some b → proj b = a)
    (hnone : ∀ a, g a = none ↔ ok a = false) :
    ∀ l : List α, (l.filterMap g).map proj = l.filter ok := by
  intro l
  induction l with
  | nil => rfl
  | cons a rest ih =>
    rw [List.filterMap_cons, List.filter_cons]
    cases hg : g a with
    | none =>
      rw [if_neg (by rw [(hnone a).mp hg]; simp)]
      exact ih
    | some b =>
      have hok : ok a = true := by
        cases hoka : ok a with
        | true => rfl
        | false =>
          rw [← hnone a] at hoka
          rw [hoka] at hg
          simp at hg
      rw [if_pos hok, List.map_cons, hsome a b hg, ih]

theorem filter_not_length {α : Type} (p : α → Bool) : ∀ l : List α,
    (l.filter p).length + (l.filter (fun a => !p a)).length = l.length := by
  intro l
  induction l with
  | nil => rfl
  | cons a rest ih =>
    rw [List.filter_cons, List.filter_cons]
    cases hp : p a with
    | true =>
      rw [if_pos rfl, if_neg (by decide)]
      simp only [List.length_cons]
      omega
    | false =>
      rw [if_neg (by decide), if_pos (by decide)]
      simp only [List.length_cons]
      omega

theorem generate_voice_audio_none_iff
    (body : List Char → List Char × List Char → PyResult (List Char × List Char × Nat))
    (ssml : List Char) (cfg : List Char × List Char) :
    generate_voice_audio body ssml cfg = none ↔ isExn (body ssml cfg) = true := by
  unfold generate_voice_audio isExn
  cases hb : body ssml cfg with
  | ok v => simp
  | exn e => simp

theorem generate_voice_audio_proj
    (body : List Char → List Char × List Char → PyResult (List Char × List Char × Nat))
    (ssml : List Char) (cfg : List Char × List Char) (r : VoiceAudioResult)
    (h : generate_voice_audio body ssml cfg = some r) :
    (r.language_code, r.gender) = cfg := by
  unfold generate_voice_audio at h
  cases hb : body ssml cfg with
  | ok v =>
    rw [hb] at h
    simp only [Option.some.injEq] at h
    subst h
    rfl
  | exn e =>
    rw [hb] at h
    simp at h

theorem chunkLoop_ne_nil (mb : Nat) : ∀ (parts : List (List Char)) (cur : List Char),
    chunkLoop mb parts cur ≠ [] := by
  intro parts
  induction parts with
  | nil => intro cur; simp [chunkLoop]
  | cons p rest ih =>
    intro cur
    unfold chunkLoop
    split
    · simp
    · exact ih (cur ++ (p ++ [' ']))

/-! ## Claim theorems -/

/-- Claim C1: for every story run over chunk-local timepoint lists of lengths
`[n0, n1, n2]` (each chunk's labels being the chunk-local `w0 .. w(n_i - 1)` in
order), the merged timepoint sequence built by the synthesis driver has length
`n0 + n1 + n2` and its renumbered mark labels are exactly
`w0, w1, ..., w(n0+n1+n2-1)` in ascending order. -/
theorem C1_timeline_merger_renumbering {τ : Type} (c0 c1 c2 : List (TimingPoint τ))
    (h0 : localLabels c0) (h1 : localLabels c1) (h2 : localLabels c2) :
    (mergeTimepoints [c0, c1, c2]).length = c0.length + c1.length + c2.length ∧
    (mergeTimepoints [c0, c1, c2]).map TimingPoint.mark_name =
      (List.range (c0.length + c1.length + c2.length)).map
        (fun j => 'w' :: natDigits j) := by
  unfold mergeTimepoints
  have hmem : ∀ tps ∈ [c0, c1, c2], localLabels tps := by
    intro q hq
    simp only [List.mem_cons, List.mem_singleton, List.not_mem_nil] at hq
    rcases hq with rfl | rfl | rfl | h
    · exact h0
    · exact h1
    · exact h2
    · exact absurd h (by simp)
  constructor
  · rw [mergeLoop_length]
    simp
    omega
  · rw [mergeLoop_labels [c0, c1, c2] 0 hmem]
    rw [show (([c0, c1, c2].map List.length).sum) = c0.length + c1.length + c2.length from by
      simp; omega]
    apply List.map_congr_left
    intro j _
    rw [Nat.zero_add]

/-- Claim C1, witness: three chunk responses of lengths `[2, 1, 1]` with
chunk-local labels merge into four timepoints labelled `w0 .. w3`. -/
theorem C1_timeline_merger_renumbering_witness :
    (mergeTimepoints [tpsA, tpsB, tpsC]).length = tpsA.length + tpsB.length + tpsC.length ∧
    (mergeTimepoints [tpsA, tpsB, tpsC]).map TimingPoint.mark_name =
      (List.range (tpsA.length + tpsB.length + tpsC.length)).map
        (fun j => 'w' :: natDigits j) :=
  C1_timeline_merger_renumbering tpsA tpsB tpsC
    (by unfold localLabels; decide) (by unfold localLabels; decide)
    (by unfold localLabels; decide)

/-- Claim C2, counterexample: for the document `<speak>a</speak>` and ceiling
`C = 16`, the ceiling is at least the largest single piece (1 byte) plus the
wrapper tags (15 bytes), yet the splitter emits the chunk `<speak>a </speak>`
of 17 bytes. The claim as stated omits the mandatory one-byte space separator
serialized after each piece. -/
theorem C2_chunk_bound_counterexample :
    (∀ p ∈ extractParts cexDoc, utf8Len p + 15 ≤ 16) ∧
    ¬(∀ chunk ∈ split_ssml_into_chunks cexDoc 16, utf8Len chunk ≤ 16) := by
  decide

/-- Claim C2, amended: for every document with at least one piece and every
byte ceiling `C` at least as large as every single piece fully serialized as
its own chunk (the piece, its trailing space separator, and both wrapper
tags, i.e. `utf8Len p + 16`), every chunk returned by the chunk splitter is at
most `C` bytes when fully serialized. -/
theorem C2_chunk_bound (ssml : List Char) (C : Nat)
    (hne : extractParts ssml ≠ [])
    (hfit : ∀ p ∈ extractParts ssml, utf8Len p + 16 ≤ C) :
    ∀ chunk ∈ split_ssml_into_chunks ssml C, utf8Len chunk ≤ C := by
  unfold split_ssml_into_chunks
  refine chunkLoop_le C (extractParts ssml) openTag ?_ hfit
  cases hp : extractParts ssml with
  | nil => exact absurd hp hne
  | cons q qs =>
    have := hfit q (by rw [hp]; simp)
    rw [utf8Len_openTag]
    omega

/-- Claim C2, witness: for `<speak>hi yo</speak>` and ceiling 30 the emitted
chunk `<speak>hi yo </speak>` is within the ceiling. -/
theorem C2_chunk_bound_witness : utf8Len wChunkHiYo ≤ 30 :=
  C2_chunk_bound wDoc 30 (by decide) (by decide) wChunkHiYo (by decide)

/-- Claim C3: for every markup document produced by the markup builder and
every ceiling `C`, concatenating the contents of all chunks returned by the
chunk splitter, with the wrapper tags stripped from each chunk and in chunk
order, reconstructs the original document's inner markup content exactly. -/
theorem C3_chunk_roundtrip (storyText : List Char) (C : Nat) :
    ((split_ssml_into_chunks (create_ssml_with_timing storyText) C).map stripWrap).flatten =
      stripWrap (create_ssml_with_timing storyText) := by
  unfold split_ssml_into_chunks
  rw [extractParts_builder]
  rw [show openTag = openTag ++ ([] : List Char) from by simp]
  rw [chunkLoop_strip C (piecesOf 0 (pySplit storyText)) []]
  rw [show create_ssml_with_timing storyText =
    openTag ++ ssmlBody 0 (pySplit storyText) ++ closeTag from rfl]
  rw [stripWrap_wrapped, ssmlBody_joinSp]
  simp

/-- Claim C4, counterexample: on the normalized narration string `a . b` the
builder assigns marker ids `[0, 2]` — the `enumerate` index counts the
unmarked token `.` as well, so the ids are not the consecutive integers
`0, 1`. -/
theorem C4_marker_ids_counterexample :
    extractIds (create_ssml_with_timing abText) = [0, 2] ∧
    extractIds (create_ssml_with_timing abText) ≠
      List.range (extractIds (create_ssml_with_timing abText)).length := by
  decide

/-- Claim C4, amended: the marker ids the builder assigns are, in document
order, exactly the positions (among all whitespace tokens, marked or not) of
the tokens containing an alphanumeric character; they are strictly increasing
and hence injective, but have gaps at unmarked tokens and start at 0 only when
the first token is marked. -/
theorem C4_marker_ids (storyText : List Char) :
    extractIds (create_ssml_with_timing storyText) = markIdsAux 0 (pySplit storyText) ∧
    List.Pairwise (· < ·) (extractIds (create_ssml_with_timing storyText)) := by
  refine ⟨extractIds_builder storyText, ?_⟩
  rw [extractIds_builder storyText]
  exact markIdsAux_pairwise (pySplit storyText) 0

/-- Claim C5, counterexample: on a story file consisting only of an image
reference line and its caption, the normalizer returns the empty string as a
normal value — it does not return a non-empty string, and no
`EmptyNarrationError` exists anywhere in the code to be raised. -/
theorem C5_normalizer_counterexample : read_and_prepare_story imgOnlyLines = [] := by
  decide

/-- Claim C5, amended: the normalizer never raises; it returns a possibly
empty string, and the result is empty exactly when nothing narratable remains
after removing image-reference/description line pairs and blank lines. -/
theorem C5_normalizer_empty_iff (lines : List (List Char)) :
    read_and_prepare_story lines = [] ↔ filterLines false lines = [] :=
  read_and_prepare_story_empty_iff lines

/-- Claim C7: `create_audio` never raises — it always returns an
`AudioGenerationResult` record carrying the story id — and the record has
`success = false` exactly when the story-level preparation raised before any
configuration ran, or every configuration's generation failed. -/
theorem C7_no_raise_success_iff (prepare : PyResult (List Char))
    (body : List Char → List Char × List Char → PyResult (List Char × List Char × Nat))
    (storyId : List Char) :
    (create_audio prepare body storyId).story_id = storyId ∧
    ((create_audio prepare body storyId).success = false ↔
      (∃ e, prepare = PyResult.exn e) ∨
      (∃ t, prepare = PyResult.ok t ∧ ∀ cfg ∈ voiceConfigList,
        isExn (body (create_ssml_with_timing t) cfg) = true)) := by
  cases prepare with
  | exn e =>
    refine ⟨rfl, ?_, fun _ => rfl⟩
    intro _
    exact Or.inl ⟨e, rfl⟩
  | ok t =>
    refine ⟨rfl, ?_, ?_⟩
    · intro hf
      right
      refine ⟨t, rfl, ?_⟩
      have hf2 : decide ((voiceConfigList.filterMap
          (generate_voice_audio body (create_ssml_with_timing t))).length > 0) = false := hf
      rw [decide_eq_false_iff_not] at hf2
      have hnil : voiceConfigList.filterMap
          (generate_voice_audio body (create_ssml_with_timing t)) = [] :=
        List.length_eq_zero.mp (by omega)
      intro cfg hcfg
      exact (generate_voice_audio_none_iff body _ cfg).mp
        (List.filterMap_eq_nil.mp hnil cfg hcfg)
    · intro h
      rcases h with ⟨e, he⟩ | ⟨t2, ht2, hall⟩
      · exact absurd he (by simp)
      · have ht : t = t2 := by injection ht2
        subst ht
        show decide ((voiceConfigList.filterMap
          (generate_voice_audio body (create_ssml_with_timing t))).length > 0) = false
        rw [decide_eq_false_iff_not]
        intro hpos
        rw [List.filterMap_eq_nil.mpr (fun cfg hcfg =>
          (generate_voice_audio_none_iff body _ cfg).mpr (hall cfg hcfg))] at hpos
        simp at hpos

/-- Claim C6: when per-voice generation raises for exactly one of the four
(language, gender) configurations, the aggregate result has `success = true`,
contains exactly three `VoiceAudioResult` entries — one per non-failing
configuration, the failing one absent — and no exception propagates to the
caller (the result is an ordinary record). -/
theorem C6_partial_failure (storyText : List Char)
    (body : List Char → List Char × List Char → PyResult (List Char × List Char × Nat))
    (storyId : List Char)
    (hone : (voiceConfigList.filter
      (fun cfg => isExn (body (create_ssml_with_timing storyText) cfg))).length = 1) :
    (create_audio (PyResult.ok storyText) body storyId).success = true ∧
    (create_audio (PyResult.ok storyText) body storyId).voice_results.length = 3 ∧
    (create_audio (PyResult.ok storyText) body storyId).voice_results.map
        (fun r => (r.language_code, r.gender)) =
      voiceConfigList.filter
        (fun cfg => !isExn (body (create_ssml_with_timing storyText) cfg)) := by
  have hproj := filterMap_proj
    (generate_voice_audio body (create_ssml_with_timing storyText))
    (fun r => (r.language_code, r.gender))
    (fun cfg => !isExn (body (create_ssml_with_timing storyText) cfg))
    (fun cfg r h => generate_voice_audio_proj body _ cfg r h)
    (fun cfg => by
      rw [generate_voice_audio_none_iff]
      cases hx : isExn (body (create_ssml_with_timing storyText) cfg) <;> simp [hx])
    voiceConfigList
  have hlen4 := filter_not_length
    (fun cfg => isExn (body (create_ssml_with_timing storyText) cfg)) voiceConfigList
  have hmaplen := congrArg List.length hproj
  rw [List.length_map] at hmaplen
  have hlen3 : (voiceConfigList.filterMap
      (generate_voice_audio body (create_ssml_with_timing storyText))).length = 3 := by
    rw [hmaplen]
    have h4 : voiceConfigList.length = 4 := by decide
    omega
  refine ⟨?_, hlen3, hproj⟩
  show decide ((voiceConfigList.filterMap
    (generate_voice_audio body (create_ssml_with_timing storyText))).length > 0) = true
  rw [decide_eq_true_eq]
  omega

/-- Claim C6, witness: a body oracle failing exactly for `es-US`/`female`
yields `success = true`, three entries, and the three non-failing
configuration pairs. -/
theorem C6_partial_failure_witness :
    (create_audio (PyResult.ok ['h', 'i']) bodyOneFail ['s']).success = true ∧
    (create_audio (PyResult.ok ['h', 'i']) bodyOneFail ['s']).voice_results.length = 3 ∧
    (create_audio (PyResult.ok ['h', 'i']) bodyOneFail ['s']).voice_results.map
        (fun r => (r.language_code, r.gender)) =
      voiceConfigList.filter
        (fun cfg => !isExn (bodyOneFail (create_ssml_with_timing ['h', 'i']) cfg)) :=
  C6_partial_failure ['h', 'i'] bodyOneFail ['s'] (by decide)

/-- Claim C8: for a fixed document, the chunk count is monotonically
non-decreasing as the byte ceiling decreases: for ceilings `C1 ≤ C2` the chunk
count at `C1` is at least the chunk count at `C2`. -/
theorem C8_count_monotone (ssml : List Char) (C1 C2 : Nat) (h : C1 ≤ C2) :
    (split_ssml_into_chunks ssml C2).length ≤ (split_ssml_into_chunks ssml C1).length := by
  unfold split_ssml_into_chunks
  rw [chunkLoop_length, chunkLoop_length, utf8Len_openTag]
  exact countChunks_ceiling h (extractParts ssml) 7 (le_refl 7)

/-- Claim C8, witness: for `<speak>hi yo</speak>` the splitter returns one
chunk at ceiling 30 and two chunks at ceiling 18. -/
theorem C8_count_monotone_witness :
    (split_ssml_into_chunks wDoc 30).length ≤ (split_ssml_into_chunks wDoc 18).length :=
  C8_count_monotone wDoc 18 30 (by decide)

/-- Claim C9: for the empty markup document the chunk splitter returns exactly
one chunk consisting of empty wrapped content (for every ceiling), and for
every input document the returned chunk list is non-empty. -/
theorem C9_empty_doc :
    (∀ C : Nat, split_ssml_into_chunks (openTag ++ closeTag) C = [openTag ++ closeTag]) ∧
    (∀ (ssml : List Char) (C : Nat), split_ssml_into_chunks ssml C ≠ []) := by
  constructor
  · intro C
    unfold split_ssml_into_chunks
    rw [show extractParts (openTag ++ closeTag) = [] from rfl]
    rfl
  · intro ssml C
    exact chunkLoop_ne_nil C (extractParts ssml) openTag

/-- Claim C10: for every input string and every positive byte ceiling, every
chunk returned by the chunk splitter is a well-formed wrapped document: it is
the opening tag, then content, then the closing tag, and it contains exactly
one occurrence of each wrapper tag. -/
theorem C10_chunks_wrapped (ssml : List Char) (C : Nat) (hC : 0 < C) :
    ∀ chunk ∈ split_ssml_into_chunks ssml C,
      ∃ mid, chunk = openTag ++ mid ++ closeTag ∧
        countOcc openTag chunk = 1 ∧ countOcc closeTag chunk = 1 := by
  intro chunk hc
  unfold split_ssml_into_chunks at hc
  have hc2 : chunk ∈ chunkLoop C (extractParts ssml) (openTag ++ ([] : List Char)) := by
    rw [show openTag ++ ([] : List Char) = openTag from by simp]
    exact hc
  obtain ⟨mid, rfl, hmid⟩ := chunkLoop_form C (extractParts ssml) [] rfl
    (findallFuel_parts_ltOk _ _) chunk hc2
  exact ⟨mid, rfl, countOcc_openTag_chunk hmid, countOcc_closeTag_chunk hmid⟩

/-- Claim C10, witness: the chunk `<speak>hi </speak>` emitted for
`<speak>hi yo</speak>` at ceiling 1 contains exactly one of each wrapper tag. -/
theorem C10_chunks_wrapped_witness :
    countOcc openTag wChunkHi = 1 ∧ countOcc closeTag wChunkHi = 1 := by
  obtain ⟨mid, _, h1, h2⟩ := C10_chunks_wrapped wDoc 1 (by decide) wChunkHi (by decide)
  exact ⟨h1, h2⟩

end AudioMaker
